import Mathlib

/-!
Verification development for the two-tier thumbnail cache of
image-desc-search (src/gui/thumb_cache.py, src/gui/disk_cache.py,
src/gui/app.py, src/gui/components/scroll_activity_tracker.py).

Python structures are shallowly embedded:
* `OrderedDict[K, V]` becomes an association list `List (K × V)` kept in
  recency order: the head is the oldest (least recently used) entry and the
  last element is the newest (most recently used) entry, exactly the order
  `OrderedDict` maintains with `move_to_end` / `popitem(last=False)`.
* `queue.Queue` becomes a FIFO `List` (head = front of the queue).
* `set` becomes a duplicate-free `List`.
* Python `bytes` becomes `List Nat`; `ImageTk.PhotoImage` values are an
  opaque type parameter `V`.
* Clock times are exact rationals `ℚ` (the float arithmetic of the source
  is idealized; all quantities involved are small sums of milliseconds).
-/

namespace IDS

/-! ## OrderedDict primitives (collections.OrderedDict) -/

/-- `d.get(k)`: first value bound to `k`, if any. -/
def odGet {K V : Type} [DecidableEq K] (k : K) : List (K × V) → Option V
  | [] => none
  | (k', v) :: t => if k' = k then some v else odGet k t

/-- `d[k] = v`: overwrite in place when the key is present (position kept),
otherwise append at the newest end. -/
def odSet {K V : Type} [DecidableEq K] (k : K) (v : V) : List (K × V) → List (K × V)
  | [] => [(k, v)]
  | (k', v') :: t => if k' = k then (k', v) :: t else (k', v') :: odSet k v t

/-- `d.move_to_end(k)`: move the entry for `k` to the newest end (no-op if
absent; the source only calls it on present keys). -/
def odMoveToEnd {K V : Type} [DecidableEq K] (k : K) (l : List (K × V)) : List (K × V) :=
  match odGet k l with
  | none => l
  | some v => (l.eraseP (fun p => decide (p.1 = k))) ++ [(k, v)]

/-- `while len(d) > maxSize: d.popitem(last=False)` — pop oldest entries
until the size bound holds. -/
def odEvictOldest {K V : Type} (maxSize : Nat) (l : List (K × V)) : List (K × V) :=
  if _h : maxSize < l.length then odEvictOldest maxSize (l.drop 1) else l
termination_by l.length
decreasing_by simp only [List.length_drop]; omega

/-! ## ThumbCache (src/gui/thumb_cache.py) -/

/-- `self._thumb_cache_max = 350`. -/
def thumb_cache_max : Nat := 350

/-- `self._thumb_max = 200`. -/
def thumb_max : Nat := 200

/-- Python bytes. -/
abbrev Bytes := List Nat

/-- Cache key `(cache_id, size)` — the `tuple[str, int]` key of
`self._thumb_cache`. -/
abbrev ThumbKey := String × Nat

/-- An element of `self._thumb_req_q`: the tuple `(index, path_text, cache_id)`. -/
structure PendingRequest where
  index : Nat
  path_text : String
  cache_id : String
deriving DecidableEq

/-- An element of `self._thumb_done_q`: the tuple
`(idx, path_text, cache_id, png-or-None)`. -/
structure CompletedResult where
  index : Nat
  path_text : String
  cache_id : String
  png : Option Bytes
deriving DecidableEq

/-- Mutable state of a `ThumbCache` instance: the LRU dict, the two queues
and the inflight set. `V` is the opaque `ImageTk.PhotoImage` type. -/
structure ThumbCacheState (V : Type) where
  thumb_cache : List (ThumbKey × V)
  thumb_req_q : List PendingRequest
  thumb_done_q : List CompletedResult
  thumb_inflight : List ThumbKey
deriving DecidableEq

/-- Freshly constructed `ThumbCache` (all containers empty). -/
def initThumbCache (V : Type) : ThumbCacheState V :=
  { thumb_cache := [], thumb_req_q := [], thumb_done_q := [], thumb_inflight := [] }

/-- `ThumbCache.get`: `None` on miss; on hit `move_to_end` then return the
value. -/
def tcGet {V : Type} (s : ThumbCacheState V) (key : ThumbKey) :
    Option V × ThumbCacheState V :=
  match odGet key s.thumb_cache with
  | none => (none, s)
  | some v => (some v, { s with thumb_cache := odMoveToEnd key s.thumb_cache })

/-- `ThumbCache.put`: assign, `move_to_end`, then pop oldest entries while
the size exceeds `thumb_cache_max`. -/
def tcPut {V : Type} (s : ThumbCacheState V) (key : ThumbKey) (img : V) :
    ThumbCacheState V :=
  { s with thumb_cache :=
      odEvictOldest thumb_cache_max (odMoveToEnd key (odSet key img s.thumb_cache)) }

/-- `ThumbCache.check_inflight`: when `(cache_id, thumb_max)` is not
inflight, mark it inflight, enqueue a request and return `True`; else
return `False` and change nothing. -/
def check_inflight {V : Type} (s : ThumbCacheState V) (index : Nat)
    (cache_id path_text : String) : Bool × ThumbCacheState V :=
  let key : ThumbKey := (cache_id, thumb_max)
  if key ∈ s.thumb_inflight then (false, s)
  else (true, { s with
    thumb_inflight := s.thumb_inflight ++ [key],
    thumb_req_q := s.thumb_req_q ++ [⟨index, path_text, cache_id⟩] })

/-- `ThumbCache.check_incache`: skip when the raw dict already holds the
key (plain `dict.get`, no promotion), else defer to `check_inflight`. -/
def check_incache {V : Type} (s : ThumbCacheState V) (index : Nat)
    (cache_id path_text : String) : Bool × ThumbCacheState V :=
  let key : ThumbKey := (cache_id, thumb_max)
  if (odGet key s.thumb_cache).isSome then (false, s)
  else check_inflight s index cache_id path_text

/-- `ps` folded through `put` (insertion order = list order); used to state
the LRU window property. -/
def tcPutMany {V : Type} (s : ThumbCacheState V) (ps : List (ThumbKey × V)) :
    ThumbCacheState V :=
  ps.foldl (fun a p => tcPut a p.1 p.2) s

/-- `check_inflight` called `n` times with identical arguments. -/
def tcRequestN {V : Type} (s : ThumbCacheState V) (index : Nat)
    (cache_id path_text : String) : Nat → ThumbCacheState V
  | 0 => s
  | n + 1 => tcRequestN (check_inflight s index cache_id path_text).2 index cache_id path_text n

/-- Key of a request, as the worker/poller reconstruct it:
`(cache_id, thumb_max)`. -/
def keyOfReq (r : PendingRequest) : ThumbKey := (r.cache_id, thumb_max)

/-- Key of a completed result: `(cache_id, thumb_max)`. -/
def keyOfDone (d : CompletedResult) : ThumbKey := (d.cache_id, thumb_max)

/-- `set.discard(x)`: remove the (sole, the set is duplicate-free)
occurrence of `x`, if present. -/
def setDiscard (k : ThumbKey) : List ThumbKey → List ThumbKey
  | [] => []
  | x :: t => if x = k then t else x :: setDiscard k t

/-- One iteration of the body of `ThumbCache._poll_thumbs`' `for _ in
range(40)` loop, plus the loop driver with fuel 40.  `photoOf` models
`ImageTk.PhotoImage(data=png)` (`none` = the constructor raised). -/
def pollLoop {V : Type} (photoOf : Bytes → Option V) :
    Nat → ThumbCacheState V → ThumbCacheState V
  | 0, s => s
  | fuel + 1, s =>
    match s.thumb_done_q with
    | [] => s
    | d :: rest =>
      let s1 := { s with thumb_done_q := rest,
                         thumb_inflight := setDiscard (keyOfDone d) s.thumb_inflight }
      match d.png with
      | none => pollLoop photoOf fuel s1
      | some png =>
        match photoOf png with
        | none => pollLoop photoOf fuel s1
        | some photo => pollLoop photoOf fuel (tcPut s1 (keyOfDone d) photo)

/-- `ThumbCache._poll_thumbs`: drain up to 40 completed results. -/
def poll_thumbs {V : Type} (photoOf : Bytes → Option V) (s : ThumbCacheState V) :
    ThumbCacheState V :=
  pollLoop photoOf 40 s

/-- Outcome oracle for one iteration of `ThumbCache._thumb_worker_main`:
which of the code paths the I/O and decoding take for a request.
`diskHit png` — `disk_cache_read` returned truthy bytes;
`dbHit tb ok` — DB lookup returned truthy `thumb_bytes`, and resizing /
re-encoding produced `ok` (`none` = `Image.open/.save` raised);
`dbMiss` — `_load_thumbnail_bytes` returned `None`/empty (no exception);
`exn` — an exception escaped the `try` body (e.g. DB connect error). -/
inductive WorkerOutcome
  | diskHit (png : Bytes)
  | dbHit (tb : Bytes) (encoded : Option Bytes)
  | dbMiss
  | exn
deriving DecidableEq

/-- The completed results pushed by one iteration of the worker loop for
request `r` (list, to record *how many* are pushed: the disk-hit branch
pushes then `continue`s, every other branch falls through to the single
final `put`). -/
def thumb_worker_emit (r : PendingRequest) : WorkerOutcome → List CompletedResult
  | .diskHit png => [⟨r.index, r.path_text, r.cache_id, some png⟩]
  | .dbHit _ (some png) => [⟨r.index, r.path_text, r.cache_id, some png⟩]
  | .dbHit _ none => [⟨r.index, r.path_text, r.cache_id, none⟩]
  | .dbMiss => [⟨r.index, r.path_text, r.cache_id, none⟩]
  | .exn => [⟨r.index, r.path_text, r.cache_id, none⟩]

/-- Did this outcome fail to produce bytes (source unavailable, decode /
transform error, other exception)? -/
def WorkerOutcome.failed : WorkerOutcome → Bool
  | .diskHit _ => false
  | .dbHit _ (some _) => false
  | .dbHit _ none => true
  | .dbMiss => true
  | .exn => true

/-- A `ThumbCache` together with the worker thread's local position: the
request it has dequeued (`self._thumb_req_q.get()`) but whose result it
has not yet pushed. -/
structure ThumbSystem (V : Type) where
  tc : ThumbCacheState V
  worker_current : Option PendingRequest
deriving DecidableEq

/-- UI-thread event: a slot calls `check_inflight`. -/
def sysRequest {V : Type} (index : Nat) (cache_id path_text : String)
    (s : ThumbSystem V) : ThumbSystem V :=
  { s with tc := (check_inflight s.tc index cache_id path_text).2 }

/-- Worker event: `self._thumb_req_q.get()` — dequeue the front request
(blocks when the queue is empty or a request is already held). -/
def sysDequeue {V : Type} (s : ThumbSystem V) : ThumbSystem V :=
  match s.worker_current with
  | some _ => s
  | none =>
    match s.tc.thumb_req_q with
    | [] => s
    | r :: rest =>
      { tc := { s.tc with thumb_req_q := rest }, worker_current := some r }

/-- Worker event: the body finishes with `outcome` and pushes the
completed result(s) of the held request onto `self._thumb_done_q`. -/
def sysComplete {V : Type} (outcome : WorkerOutcome) (s : ThumbSystem V) :
    ThumbSystem V :=
  match s.worker_current with
  | none => s
  | some r =>
    { tc := { s.tc with
        thumb_done_q := s.tc.thumb_done_q ++ thumb_worker_emit r outcome },
      worker_current := none }

/-- UI-thread event: one `_poll_thumbs` tick. -/
def sysPoll {V : Type} (photoOf : Bytes → Option V) (s : ThumbSystem V) :
    ThumbSystem V :=
  { s with tc := poll_thumbs photoOf s.tc }

/-- Inflight-set invariant: the inflight set is duplicate-free and holds
exactly the keys of the outstanding jobs — queued requests, the request the
worker currently processes, and undelivered completed results.  In
particular there is at most one outstanding generation job per key. -/
def InflightInv {V : Type} (s : ThumbSystem V) : Prop :=
  s.tc.thumb_inflight.Nodup ∧
  s.tc.thumb_inflight.Perm
    (s.tc.thumb_req_q.map keyOfReq ++
      (s.worker_current.map keyOfReq).toList ++
      s.tc.thumb_done_q.map keyOfDone)

/-! ## DiskCache (src/gui/disk_cache.py)

Python strings are modelled as `List Char`, filesystem paths as their
segment lists (`pathlib.Path` is a sequence of parts), and the filesystem
as a map from paths to file contents.  `hashlib.sha1(...).hexdigest()` is
an opaque parameter `sha1hex`; nothing below depends on its internals. -/

/-- One path segment / Python string. -/
abbrev Str := List Char

/-- A `pathlib.Path`, as its list of parts. -/
abbrev PathT := List Str

/-- `str.lower()` on the ASCII range (the relevant inputs are ASCII hex). -/
def pyLower (c : Char) : Char :=
  if 65 ≤ c.toNat ∧ c.toNat ≤ 90 then Char.ofNat (c.toNat + 32) else c

/-- Membership in the regex class `[0-9a-fA-F]`. -/
def isHexDigitChar (c : Char) : Bool :=
  decide ((48 ≤ c.toNat ∧ c.toNat ≤ 57) ∨ (97 ≤ c.toNat ∧ c.toNat ≤ 102) ∨
    (65 ≤ c.toNat ∧ c.toNat ≤ 70))

/-- `str.strip()`: drop leading and trailing whitespace. -/
def pyStrip (s : Str) : Str :=
  ((s.dropWhile Char.isWhitespace).reverse.dropWhile Char.isWhitespace).reverse

/-- `re.fullmatch(r"[0-9a-fA-F]{16,128}", s)` succeeds. -/
def hexLike (s : Str) : Bool :=
  decide (16 ≤ s.length) && decide (s.length ≤ 128) && s.all isHexDigitChar

/-- Decimal digits of `n`, most significant first — the rendering of
`int(size)` inside the f-string `f"{safe}_{int(size)}.png"`.  Structural
fuel recursion (`fuel > n` always holds at the entry point). -/
def natDigitsAux : Nat → Nat → Str
  | 0, _ => []
  | fuel + 1, n =>
    if n < 10 then [Nat.digitChar n]
    else natDigitsAux fuel (n / 10) ++ [Nat.digitChar (n % 10)]

/-- Decimal rendering of a natural number. -/
def natDigits (n : Nat) : Str := natDigitsAux (n + 1) n

/-- Membership in `[0-9a-f]` — the character class of a normalized
identifier after lowercasing. -/
def isLowerHexChar (c : Char) : Bool :=
  decide ((48 ≤ c.toNat ∧ c.toNat ≤ 57) ∨ (97 ≤ c.toNat ∧ c.toNat ≤ 102))

/-- Decimal decoder, the left inverse of `natDigits` (used to prove that
the `<size>` component of a cache file name is unambiguous). -/
def decValue (l : Str) : Nat := l.foldl (fun a c => a * 10 + (c.toNat - 48)) 0

/-- The normalized identifier computed by `DiskCache._disk_cache_path`:
empty id falls back to `"unknown"`, the id is stripped, kept when it
ms the hex regex and hashed otherwise, then lowercased. -/
def dcSafe (sha1hex : Str → Str) (cache_id : Str) : Str :=
  let cid := if cache_id = [] then "unknown".data else cache_id
  let stripped := pyStrip cid
  let safe := if hexLike stripped then stripped else sha1hex stripped
  safe.map pyLower

/-- The shard directory name: `safe[:2]`. -/
def dcSub (safe : Str) : Str := safe.take 2

/-- The cache file name: `f"{safe}_{int(size)}.png"`. -/
def dcFileName (safe : Str) (size : Nat) : Str :=
  safe ++ "_".data ++ natDigits size ++ ".png".data

/-- `DiskCache._disk_cache_path` (the returned path; the `mkdir` side
effect does not change any file content and is not modelled):
`<cacheRoot>/<safe[:2]>/<safe>_<size>.png`. -/
def disk_cache_path (sha1hex : Str → Str) (root : PathT) (cache_id : Str)
    (size : Nat) : PathT :=
  root ++ [dcSub (dcSafe sha1hex cache_id), dcFileName (dcSafe sha1hex cache_id) size]

/-- `p.with_suffix(p.suffix + ".tmp")`: same directory, file name extended
with `".tmp"`. -/
def disk_cache_tmp_path (sha1hex : Str → Str) (root : PathT) (cache_id : Str)
    (size : Nat) : PathT :=
  root ++ [dcSub (dcSafe sha1hex cache_id),
    dcFileName (dcSafe sha1hex cache_id) size ++ ".tmp".data]

/-- The filesystem: file contents by path (`none` = no such file). -/
abbrev FS := PathT → Option Bytes

/-- Create or overwrite one file. -/
def fsWrite (p : PathT) (content : Bytes) (fs : FS) : FS :=
  fun q => if q = p then some content else fs q

/-- `Path.replace`: atomic rename of `src` onto `dst`. -/
def fsRename (src dst : PathT) (fs : FS) : FS :=
  fun q => if q = dst then fs src else if q = src then none else fs q

/-- `DiskCache.disk_cache_read`.  `enabled` is `self._disk_cache_enabled`;
`readErr` is true when any of the filesystem calls raises (the `except`
arm).  A missing file, an exception, and an empty file all yield `None`. -/
def disk_cache_read (enabled readErr : Bool) (fs : FS) (sha1hex : Str → Str)
    (root : PathT) (cache_id : Str) (size : Nat) : Option Bytes :=
  if enabled = false then none
  else if readErr then none
  else
    match fs (disk_cache_path sha1hex root cache_id size) with
    | none => none
    | some data => if data = [] then none else some data

/-- Primitive filesystem mutations of `DiskCache.disk_cache_write`:
writes of (possibly still partial) content to the temporary file, then the
atomic rename onto the target. -/
inductive WriteEvt
  | tmpWrite (content : Bytes)
  | tmpRename
deriving DecidableEq

/-- The full mutation trace of `disk_cache_write(cache_id, size, png)`:
`tmp.write_bytes(png)` — during which a concurrent observer may see any
partially flushed content `partials` at the tmp path — then
`tmp.replace(p)`.  An exception aborts the trace at any prefix, performing
no further mutation (the `except: return` arm); `enabled = False` is the
empty prefix. -/
def disk_cache_write_trace (partials : List Bytes) (png : Bytes) : List WriteEvt :=
  (partials ++ [png]).map WriteEvt.tmpWrite ++ [WriteEvt.tmpRename]

/-- Apply one write event to the filesystem. -/
def applyWriteEvt (tmp target : PathT) (fs : FS) : WriteEvt → FS
  | .tmpWrite c => fsWrite tmp c fs
  | .tmpRename => fsRename tmp target fs

/-- Filesystem after a (possibly partial) run of the writer's events. -/
def runWriteEvts (tmp target : PathT) (evts : List WriteEvt) (fs : FS) : FS :=
  evts.foldl (applyWriteEvt tmp target) fs

/-! ## RenderScheduler (App._schedule_render, src/gui/app.py) -/

/-- `self._render_min_interval_s = 1.0 / 30.0`. -/
def render_min_interval_s : ℚ := 1 / 30

/-- Scheduler state: `self._render_scheduled_at` and the pending
`after` timer, recorded as its absolute fire time (`None` = no pending
render callback). -/
structure RenderSched where
  render_scheduled_at : ℚ
  render_after : Option ℚ
deriving DecidableEq

/-- `App.__init__`: `_render_scheduled_at = 0.0`, `_render_after_id = None`. -/
def initRenderSched : RenderSched := { render_scheduled_at := 0, render_after := none }

/-- `App._schedule_render(delay_ms)` called at clock time `now`:
`delay_ms <= 1` is treated as zero delay, the target is
`max(now + delay_s, _render_scheduled_at + _render_min_interval_s)`, any
previously pending timer is cancelled, and a single new timer is armed
after `max(0, int((target - now) * 1000))` whole milliseconds. -/
def schedule_render (now : ℚ) (delay_ms : ℤ) (s : RenderSched) : RenderSched :=
  let delay_s : ℚ := if delay_ms ≤ 1 then 0 else (delay_ms : ℚ) / 1000
  let earliest := s.render_scheduled_at + render_min_interval_s
  let target := max (now + delay_s) earliest
  let wait_ms : ℤ := max 0 ⌊(target - now) * 1000⌋
  { render_scheduled_at := target,
    render_after := some (now + (wait_ms : ℚ) / 1000) }

/-- The scheduler run driven by an unending burst of triggers: trigger
number `n` arrives at time `n * period` and calls
`_schedule_render(delay_ms)` (e.g. `_flush_scroll` fires every 16 ms with
`delay_ms=16` during continuous wheel scrolling). -/
def schedRun (period : ℚ) (delay_ms : ℤ) : Nat → RenderSched
  | 0 => schedule_render 0 delay_ms initRenderSched
  | n + 1 => schedule_render ((n + 1 : ℕ) * period) delay_ms (schedRun period delay_ms n)

/-! ## ScrollActivityTracker (src/gui/components/scroll_activity_tracker.py) -/

/-- Tracker state: `self._scroll_active` and the pending idle timer
(`self._scroll_idle_after_id`, kept abstract). -/
structure ScrollTracker where
  scroll_active : Bool
  scroll_idle_after : Option Unit
deriving DecidableEq

/-- `mark_scroll_active`: set active, cancel any pending idle timer, arm a
fresh one. -/
def mark_scroll_active (_t : ScrollTracker) : ScrollTracker :=
  { scroll_active := true, scroll_idle_after := some () }

/-- `_mark_scroll_idle` (the idle timer fired `idle_ms` after the last
scroll input): clear the timer, leave the Active state and call
`self._app._schedule_render(delay_ms=1)` exactly once. -/
def mark_scroll_idle (_t : ScrollTracker) (now : ℚ) (sched : RenderSched) :
    ScrollTracker × RenderSched :=
  ({ scroll_active := false, scroll_idle_after := none }, schedule_render now 1 sched)

/-! ## Viewport geometry (App._ensure_pool, App._recompute_virtual_geometry,
App._render_results) -/

/-- `cols = max(1, width // self._card_w)`. -/
def colsOf (width card_w : Nat) : Nat := max 1 (width / card_w)

/-- `visible_rows = max(1, (height // self._card_h) + 2)`. -/
def visibleRowsOf (height card_h : Nat) : Nat := max 1 (height / card_h + 2)

/-- `App._recompute_virtual_geometry`: `1` when there are no matches, else
`((len + cols - 1) // cols) * card_h`. -/
def virtualTotalH (nmatches cols card_h : Nat) : Nat :=
  if nmatches = 0 then 1 else ((nmatches + cols - 1) / cols) * card_h

/-- `first_row = max(0, y0 // self._card_h)` with Python floor division. -/
def firstRowOf (y0 : ℤ) (card_h : Nat) : Nat := (max 0 (Int.fdiv y0 card_h)).toNat

/-! ## Render pass (App._render_results / render_canvas_only /
App._prefetch_thumbs) -/

/-- A search match as the render path uses it. -/
structure SearchMatch where
  path : String
  hash : String
deriving DecidableEq

/-- What one slot shows after a render pass: hidden (index out of range),
the "Loading" placeholder with the image item cleared, or actual image
bytes swapped in. -/
inductive SlotDisplay (V : Type)
  | hidden
  | placeholder
  | image (photo : V)
deriving DecidableEq

/-- `cache_id = hash_text or path_text`. -/
def cacheIdOf (m : SearchMatch) : String := if m.hash = "" then m.path else m.hash

/-- One slot of `render_canvas_only`: out-of-range slots are hidden;
during active scrolling the image is cleared and the placeholder shown and
nothing else happens; otherwise a cache hit (a promoting `ThumbCache.get`)
swaps the image in, and a miss shows the placeholder and calls
`check_inflight`. -/
def renderSlot {V : Type} (active : Bool) (ms : List SearchMatch)
    (start_index slot : Nat) (s : ThumbCacheState V) :
    SlotDisplay V × ThumbCacheState V :=
  match ms[start_index + slot]? with
  | none => (.hidden, s)
  | some m =>
    if active then (.placeholder, s)
    else
      match tcGet s (cacheIdOf m, thumb_max) with
      | (some photo, s') => (.image photo, s')
      | (none, s') =>
        (.placeholder, (check_inflight s' (start_index + slot) (cacheIdOf m) m.path).2)

/-- `render_canvas_only` over a list of slot numbers, threading the cache
state and collecting each slot's display. -/
def renderSlots {V : Type} (active : Bool) (ms : List SearchMatch)
    (start_index : Nat) : List Nat → ThumbCacheState V →
    List (SlotDisplay V) × ThumbCacheState V
  | [], s => ([], s)
  | i :: rest, s =>
    let (d, s') := renderSlot active ms start_index i s
    let (ds, s'') := renderSlots active ms start_index rest s'
    (d :: ds, s'')

/-- `render_canvas_only`: slots `0 .. cols*visible_rows - 1` in order. -/
def render_canvas_only {V : Type} (active : Bool) (ms : List SearchMatch)
    (start_index nslots : Nat) (s : ThumbCacheState V) :
    List (SlotDisplay V) × ThumbCacheState V :=
  renderSlots active ms start_index (List.range nslots) s

/-- The `visible_paths` list collected by `render_canvas_only`: the path
of every in-range slot (appended whether or not scrolling is active). -/
def visiblePaths (ms : List SearchMatch) (start_index nslots : Nat) :
    List String :=
  ((ms.drop start_index).take nslots).map SearchMatch.path

/-- The `for i in range(start, end)` loop of `App._prefetch_thumbs`:
stop when the budget is exhausted, skip paths already seen, and spend one
budget unit whenever `check_incache` actually enqueued a request. -/
def prefetchLoop {V : Type} (ms : List SearchMatch) :
    List Nat → Nat → List String → ThumbCacheState V → ThumbCacheState V
  | [], _, _, s => s
  | i :: rest, budget, seen, s =>
    if budget = 0 then s
    else
      match ms[i]? with
      | none => prefetchLoop ms rest budget seen s
      | some m =>
        if m.path ∈ seen then prefetchLoop ms rest budget seen s
        else
          let res := check_incache s i (cacheIdOf m) m.path
          prefetchLoop ms rest (if res.1 then budget - 1 else budget)
            (m.path :: seen) res.2

/-- `App._prefetch_thumbs`: request thumbnails for a 3-row buffer around
the visible range, bounded by a budget of 80 issued requests per pass. -/
def prefetch_thumbs {V : Type} (ms : List SearchMatch)
    (first_row cols visible_rows : Nat) (visible_paths : List String)
    (s : ThumbCacheState V) : ThumbCacheState V :=
  if ms.length = 0 then s
  else
    let buffer_rows := 3
    let start_row := first_row - buffer_rows
    let end_row :=
      min ((ms.length + cols - 1) / cols - 1) (first_row + visible_rows + buffer_rows)
    let start := start_row * cols
    let stop := min ms.length ((end_row + 1) * cols)
    prefetchLoop ms (List.range' start (stop - start)) 80 visible_paths s

/-- The cache-facing effect of one `App._render_results` pass (after the
render key check): draw every slot, then prefetch around the viewport. -/
def render_results_step {V : Type} (active : Bool) (ms : List SearchMatch)
    (first_row cols visible_rows : Nat) (s : ThumbCacheState V) :
    List (SlotDisplay V) × ThumbCacheState V :=
  let start_index := first_row * cols
  let nslots := cols * visible_rows
  let res := render_canvas_only active ms start_index nslots s
  let s2 := prefetch_thumbs ms first_row cols visible_rows
    (visiblePaths ms start_index nslots) res.2
  (res.1, s2)

/-! ## Spec-side comparison formulas (quoted from spec.md, for the
refinement claims; everything above is translated from the source) -/

/-- Spec §4.4/§8: virtual content height `ceil(itemCount / columns) *
cardHeight`, with a true rational ceiling. -/
def specVirtualH (nmatches cols card_h : Nat) : Nat :=
  ⌈(nmatches : ℚ) / cols⌉₊ * card_h

/-- Spec §8: `firstVisibleRow = floor(scrollOffsetPx / cardHeight)`. -/
def specFirstRow (y0 : ℤ) (card_h : Nat) : ℤ := ⌊(y0 : ℚ) / (card_h : ℚ)⌋

/-- Spec §4.5 (claim C8): next allowed render time
`max(now + minDelay, lastScheduledTime + minInterval)`. -/
def specScheduleTarget (now : ℚ) (delay_ms : ℤ) (last : ℚ) : ℚ :=
  max (now + (delay_ms : ℚ) / 1000) (last + render_min_interval_s)

/-!
# Theorems
-/

/-! ### OrderedDict / LRU lemmas -/

theorem odEvictOldest_eq_drop {K V : Type} (m : Nat) (l : List (K × V)) :
    odEvictOldest m l = l.drop (l.length - m) := by
  rw [odEvictOldest]
  split
  · next h =>
    rw [odEvictOldest_eq_drop m (l.drop 1), List.drop_drop]
    congr 1
    simp only [List.length_drop]
    omega
  · next h =>
    have h0 : l.length - m = 0 := by omega
    simp [h0]
termination_by l.length
decreasing_by simp only [List.length_drop]; omega

theorem odEvictOldest_length_le {K V : Type} (m : Nat) (l : List (K × V)) :
    (odEvictOldest m l).length ≤ m ⊔ l.length := by
  rw [odEvictOldest_eq_drop, List.length_drop]
  omega

theorem odGet_of_not_mem {K V : Type} [DecidableEq K] {k : K} {l : List (K × V)}
    (h : k ∉ l.map Prod.fst) : odGet k l = none := by
  induction l with
  | nil => rfl
  | cons a t ih =>
    simp only [List.map_cons, List.mem_cons] at h
    push_neg at h
    rw [odGet, if_neg (fun e => h.1 e.symm), ih h.2]

theorem odGet_mem {K V : Type} [DecidableEq K] {k : K} {v : V} {l : List (K × V)}
    (h : odGet k l = some v) : (k, v) ∈ l := by
  induction l with
  | nil => simp [odGet] at h
  | cons a t ih =>
    rw [odGet] at h
    split at h
    · next he => cases h; cases a; simp_all
    · exact List.mem_cons_of_mem _ (ih h)

theorem odSet_of_not_mem {K V : Type} [DecidableEq K] {k : K} (v : V) {l : List (K × V)}
    (h : k ∉ l.map Prod.fst) : odSet k v l = l ++ [(k, v)] := by
  induction l with
  | nil => rfl
  | cons a t ih =>
    simp only [List.map_cons, List.mem_cons] at h
    push_neg at h
    rw [odSet, if_neg (fun e => h.1 e.symm), ih h.2]
    rfl

theorem eraseP_of_key_not_mem {K V : Type} [DecidableEq K] {k : K} {l : List (K × V)}
    (h : k ∉ l.map Prod.fst) : l.eraseP (fun p => decide (p.1 = k)) = l := by
  apply List.eraseP_of_forall_not
  intro a ha hpa
  exact h (List.mem_map.mpr ⟨a, ha, by simpa using hpa⟩)

theorem odMoveToEnd_fresh_concat {K V : Type} [DecidableEq K] {k : K} (v : V)
    {l : List (K × V)} (h : k ∉ l.map Prod.fst) :
    odMoveToEnd k (l ++ [(k, v)]) = l ++ [(k, v)] := by
  have hget : odGet k (l ++ [(k, v)]) = some v := by
    induction l with
    | nil => simp [odGet]
    | cons a t ih =>
      simp only [List.map_cons, List.mem_cons] at h
      push_neg at h
      rw [List.cons_append, odGet, if_neg (fun e => h.1 e.symm)]
      exact ih h.2
  rw [odMoveToEnd, hget]
  rw [List.eraseP_append_right _ (by
    intro b hb hpb
    exact h (List.mem_map.mpr ⟨b, hb, by simpa using hpb⟩))]
  simp [List.eraseP_cons]

theorem tcPut_fresh {V : Type} {s : ThumbCacheState V} {k : ThumbKey} (v : V)
    (h : k ∉ s.thumb_cache.map Prod.fst) :
    (tcPut s k v).thumb_cache =
      (s.thumb_cache ++ [(k, v)]).drop (s.thumb_cache.length + 1 - thumb_cache_max) := by
  rw [tcPut]
  simp only
  rw [odSet_of_not_mem v h, odMoveToEnd_fresh_concat v h, odEvictOldest_eq_drop]
  have hl : (s.thumb_cache ++ [(k, v)]).length = s.thumb_cache.length + 1 := by
    simp
  rw [hl]

/-- Inserting fresh, pairwise-distinct keys into an initially empty
`ThumbCache` leaves exactly the last `thumb_cache_max` insertions, in
insertion order. -/
theorem tcPutMany_window {V : Type} (ps : List (ThumbKey × V))
    (h : (ps.map Prod.fst).Nodup) :
    (tcPutMany (initThumbCache V) ps).thumb_cache =
      ps.drop (ps.length - thumb_cache_max) := by
  have hmax : thumb_cache_max = 350 := rfl
  induction ps using List.reverseRecOn with
  | nil => simp [tcPutMany, initThumbCache]
  | append_singleton ps p ih =>
    have hsplit : (ps.map Prod.fst).Nodup ∧ p.1 ∉ ps.map Prod.fst := by
      rw [List.map_append] at h
      have h1 := List.Nodup.of_append_left h
      have h2 := List.disjoint_of_nodup_append h
      exact ⟨h1, fun hm => h2 hm (by simp)⟩
    have ihv := ih hsplit.1
    have hfresh : p.1 ∉ (tcPutMany (initThumbCache V) ps).thumb_cache.map Prod.fst := by
      rw [ihv]
      intro hm
      exact hsplit.2 (by
        rcases List.mem_map.mp hm with ⟨q, hq, he⟩
        exact List.mem_map.mpr ⟨q, List.mem_of_mem_drop hq, he⟩)
    have hstep : tcPutMany (initThumbCache V) (ps ++ [p]) =
        tcPut (tcPutMany (initThumbCache V) ps) p.1 p.2 := by
      rw [tcPutMany, tcPutMany, List.foldl_append]
      rfl
    rw [hstep, tcPut_fresh p.2 hfresh, ihv]
    have hlen : (ps.drop (ps.length - thumb_cache_max)).length =
        ps.length - (ps.length - thumb_cache_max) := by
      simp
    by_cases hc : ps.length < thumb_cache_max
    · have e1 : ps.length - thumb_cache_max = 0 := by omega
      have e2 : (ps ++ [p]).length - thumb_cache_max = 0 := by
        simp only [List.length_append, List.length_cons, List.length_nil]
        omega
      have e3 : ps.length + 1 - thumb_cache_max = 0 := by omega
      simp [e1, e2, e3]
    · have e1 : (ps.drop (ps.length - thumb_cache_max)).length = thumb_cache_max := by
        rw [hlen]; omega
      have e4 : (ps.drop (ps.length - thumb_cache_max)).length + 1 - thumb_cache_max = 1 := by
        omega
      rw [e4, List.drop_append_of_le_length (by omega), List.drop_drop]
      have e5 : (ps ++ [p]).length - thumb_cache_max = ps.length - thumb_cache_max + 1 := by
        simp only [List.length_append, List.length_cons, List.length_nil]
        omega
      rw [e5, List.drop_append_of_le_length (by omega)]

theorem odEvictOldest_length_le' {K V : Type} (m : Nat) (l : List (K × V)) :
    (odEvictOldest m l).length ≤ m := by
  rw [odEvictOldest_eq_drop, List.length_drop]
  omega

theorem odGet_odSet_self {K V : Type} [DecidableEq K] (k : K) (v : V) (l : List (K × V)) :
    odGet k (odSet k v l) = some v := by
  induction l with
  | nil => simp [odSet, odGet]
  | cons a t ih =>
    rw [odSet]
    split
    · next he => rw [odGet, if_pos he]
    · next he => rw [odGet, if_neg he, ih]

theorem odMoveToEnd_odSet {K V : Type} [DecidableEq K] (k : K) (v : V) (l : List (K × V)) :
    odMoveToEnd k (odSet k v l) =
      (odSet k v l).eraseP (fun p => decide (p.1 = k)) ++ [(k, v)] := by
  rw [odMoveToEnd, odGet_odSet_self]

theorem tcPut_getLast {V : Type} (s : ThumbCacheState V) (k : ThumbKey) (v : V) :
    (tcPut s k v).thumb_cache.getLast? = some (k, v) := by
  have hmax : thumb_cache_max = 350 := rfl
  rw [tcPut]
  simp only
  rw [odMoveToEnd_odSet, odEvictOldest_eq_drop]
  set E := (odSet k v s.thumb_cache).eraseP (fun p => decide (p.1 = k)) with hE
  have hlen : (E ++ [(k, v)]).length = E.length + 1 := by simp
  rw [hlen, List.drop_append_of_le_length (by omega), List.getLast?_concat]

theorem tcGet_length {V : Type} (s : ThumbCacheState V) (k : ThumbKey) :
    (tcGet s k).2.thumb_cache.length = s.thumb_cache.length := by
  rw [tcGet]
  cases hget : odGet k s.thumb_cache with
  | none => rfl
  | some v =>
    simp only
    rw [odMoveToEnd, hget]
    have hmem := odGet_mem hget
    rw [List.length_append, List.length_eraseP_of_mem hmem (by simp)]
    have : 1 ≤ s.thumb_cache.length := List.length_pos.mpr (by
      intro he
      rw [he] at hmem
      exact (List.not_mem_nil _ hmem))
    simp
    omega

theorem tcGet_getLast {V : Type} {s : ThumbCacheState V} {k : ThumbKey} {v : V}
    (hhit : odGet k s.thumb_cache = some v) :
    (tcGet s k).2.thumb_cache.getLast? = some (k, v) := by
  rw [tcGet, hhit]
  simp only
  rw [odMoveToEnd, hhit, List.getLast?_concat]

theorem eraseP_keys_ne {K V : Type} [DecidableEq K] {l : List (K × V)} {k : K} {v : V}
    (hnd : (l.map Prod.fst).Nodup) (hmem : (k, v) ∈ l) :
    ∀ q ∈ l.eraseP (fun p => decide (p.1 = k)), q.1 ≠ k := by
  obtain ⟨a, l₁, l₂, hnotl₁, hpa, heq, herase⟩ :=
    @List.exists_of_eraseP _ (fun p => decide (p.1 = k)) _ _ hmem (decide_eq_true rfl)
  have hak : a.1 = k := by simpa using hpa
  rw [herase]
  subst heq
  rw [List.map_append, List.map_cons, hak] at hnd
  have h₁ : k ∉ l₁.map Prod.fst := by
    have hd := List.disjoint_of_nodup_append hnd
    intro hk
    exact hd hk (List.mem_cons_self _ _)
  have h₂ : k ∉ l₂.map Prod.fst := by
    have hr := List.Nodup.of_append_right hnd
    rw [List.nodup_cons] at hr
    exact hr.1
  intro q hq hqk
  rcases List.mem_append.mp hq with hql | hql
  · exact h₁ (List.mem_map.mpr ⟨q, hql, hqk⟩)
  · exact h₂ (List.mem_map.mpr ⟨q, hql, hqk⟩)

theorem tcGet_head_ne {V : Type} {s : ThumbCacheState V} {k : ThumbKey} {v : V}
    (hkeys : (s.thumb_cache.map Prod.fst).Nodup)
    (hhit : odGet k s.thumb_cache = some v)
    (hsz : 2 ≤ s.thumb_cache.length) :
    ∀ q, (tcGet s k).2.thumb_cache.head? = some q → q.1 ≠ k := by
  have hcache : (tcGet s k).2.thumb_cache =
      s.thumb_cache.eraseP (fun p => decide (p.1 = k)) ++ [(k, v)] := by
    rw [tcGet, hhit]
    simp only
    rw [odMoveToEnd, hhit]
  rw [hcache]
  have hmem := odGet_mem hhit
  have hne := eraseP_keys_ne hkeys hmem
  have hlen : (s.thumb_cache.eraseP (fun p => decide (p.1 = k))).length =
      s.thumb_cache.length - 1 :=
    List.length_eraseP_of_mem hmem (by simp)
  intro q hq
  cases hE : s.thumb_cache.eraseP (fun p => decide (p.1 = k)) with
  | nil => rw [hE] at hlen; simp at hlen; omega
  | cons e t =>
    rw [hE, List.cons_append, List.head?_cons] at hq
    cases hq
    exact hne _ (hE ▸ List.mem_cons_self _ _)

/-! ### Claim C2 -/

/-- C2: for the `ThumbCache` LRU of capacity `thumb_cache_max = 350`:
`put` inserts or overwrites the key and promotes it to most-recently-used
(it always ends up the newest entry), and evicts oldest entries so the
entry count never exceeds the capacity after any `put`; `get` preserves
the entry count and on a hit promotes the key to most-recently-used;
after inserting `350 + j` distinct keys into an empty cache with no
repeated access, the cache holds exactly the last 350 insertions in order
and the `j` earliest-inserted keys are exactly the ones evicted; and
immediately after a `get` hit on a cache with at least two entries, the
next eviction victim (the oldest entry) is never the key just accessed. -/
theorem C2_thumb_cache_lru {V : Type} (s : ThumbCacheState V) (k : ThumbKey) (v : V)
    (ps : List (ThumbKey × V)) (j : Nat)
    (hnodup : (ps.map Prod.fst).Nodup)
    (hlen : ps.length = thumb_cache_max + j)
    (hkeys : (s.thumb_cache.map Prod.fst).Nodup)
    (hhit : odGet k s.thumb_cache = some v)
    (hsz : 2 ≤ s.thumb_cache.length) :
    (∀ (s' : ThumbCacheState V) (k' : ThumbKey) (v' : V),
        (tcPut s' k' v').thumb_cache.length ≤ thumb_cache_max) ∧
    (∀ (s' : ThumbCacheState V) (k' : ThumbKey) (v' : V),
        (tcPut s' k' v').thumb_cache.getLast? = some (k', v')) ∧
    (∀ (s' : ThumbCacheState V) (k' : ThumbKey),
        (tcGet s' k').2.thumb_cache.length = s'.thumb_cache.length) ∧
    ((tcGet s k).2.thumb_cache.getLast? = some (k, v)) ∧
    ((tcPutMany (initThumbCache V) ps).thumb_cache = ps.drop j) ∧
    (∀ q ∈ ps.take j,
        q.1 ∉ ((tcPutMany (initThumbCache V) ps).thumb_cache.map Prod.fst)) ∧
    (∀ q, (tcGet s k).2.thumb_cache.head? = some q → q.1 ≠ k) := by
  have hwindow : (tcPutMany (initThumbCache V) ps).thumb_cache = ps.drop j := by
    rw [tcPutMany_window ps hnodup]
    have hj : ps.length - thumb_cache_max = j := by omega
    rw [hj]
  refine ⟨?_, ?_, ?_, tcGet_getLast hhit, hwindow, ?_, tcGet_head_ne hkeys hhit hsz⟩
  · intro s' k' v'
    simp only [tcPut]
    exact odEvictOldest_length_le' _ _
  · intro s' k' v'
    exact tcPut_getLast s' k' v'
  · intro s' k'
    exact tcGet_length s' k'
  · intro q hq hmem
    rw [hwindow] at hmem
    have hsplitmap : ps.map Prod.fst =
        (ps.take j).map Prod.fst ++ (ps.drop j).map Prod.fst := by
      rw [← List.map_append, List.take_append_drop]
    rw [hsplitmap] at hnodup
    exact List.disjoint_of_nodup_append hnodup (List.mem_map.mpr ⟨q, hq, rfl⟩) hmem

/-- Witness for C2 at concrete inputs: 351 distinct keys inserted into an
empty cache leave the last 350, and a `get` hit promotes to the newest
position. -/
theorem C2_thumb_cache_lru_witness :
    ((tcPutMany (initThumbCache Unit)
        ((List.range 351).map (fun i => ((("x", i) : ThumbKey), ())))).thumb_cache =
      ((List.range 351).map (fun i => ((("x", i) : ThumbKey), ()))).drop 1) ∧
    ((tcGet (⟨[(("a", 200), ()), (("b", 200), ())], [], [], []⟩ : ThumbCacheState Unit)
        ("a", 200)).2.thumb_cache.getLast? = some (("a", 200), ())) := by
  have hinj : Function.Injective (Prod.fst ∘ fun i : ℕ => ((("x", i) : ThumbKey), ())) := by
    intro a b hab
    simpa using congrArg Prod.snd hab
  have h := @C2_thumb_cache_lru Unit
    ⟨[(("a", 200), ()), (("b", 200), ())], [], [], []⟩ ("a", 200) ()
    ((List.range 351).map (fun i => ((("x", i) : ThumbKey), ()))) 1
    (by rw [List.map_map]; exact List.Nodup.map hinj (List.nodup_range 351))
    (by simp [thumb_cache_max])
    (by decide) (by decide) (by decide)
  exact ⟨h.2.2.2.2.1, h.2.2.2.1⟩

/-! ### Inflight / dedup lemmas -/

theorem check_inflight_of_not_mem {V : Type} {s : ThumbCacheState V}
    {cid : String} (idx : Nat) (p : String)
    (h : ((cid, thumb_max) : ThumbKey) ∉ s.thumb_inflight) :
    check_inflight s idx cid p =
      (true, { s with
        thumb_inflight := s.thumb_inflight ++ [(cid, thumb_max)],
        thumb_req_q := s.thumb_req_q ++ [⟨idx, p, cid⟩] }) := by
  rw [check_inflight, if_neg h]

theorem check_inflight_of_mem {V : Type} {s : ThumbCacheState V}
    {cid : String} (idx : Nat) (p : String)
    (h : ((cid, thumb_max) : ThumbKey) ∈ s.thumb_inflight) :
    check_inflight s idx cid p = (false, s) := by
  rw [check_inflight, if_pos h]

theorem tcRequestN_of_mem {V : Type} {s : ThumbCacheState V} {cid : String}
    (idx : Nat) (p : String) (m : Nat)
    (h : ((cid, thumb_max) : ThumbKey) ∈ s.thumb_inflight) :
    tcRequestN s idx cid p m = s := by
  induction m with
  | zero => rfl
  | succ m ih =>
    rw [tcRequestN, check_inflight_of_mem idx p h]
    exact ih

theorem tcRequestN_one {V : Type} {s : ThumbCacheState V} {cid : String}
    (idx : Nat) (p : String) (n : Nat) (hn : 1 ≤ n)
    (h : ((cid, thumb_max) : ThumbKey) ∉ s.thumb_inflight) :
    tcRequestN s idx cid p n =
      { s with
        thumb_inflight := s.thumb_inflight ++ [(cid, thumb_max)],
        thumb_req_q := s.thumb_req_q ++ [⟨idx, p, cid⟩] } := by
  cases n with
  | zero => omega
  | succ m =>
    rw [tcRequestN, check_inflight_of_not_mem idx p h]
    exact tcRequestN_of_mem idx p m (by simp)

theorem thumb_worker_emit_keys (r : PendingRequest) (o : WorkerOutcome) :
    (thumb_worker_emit r o).map keyOfDone = [keyOfReq r] := by
  cases o with
  | diskHit png => rfl
  | dbHit tb enc => cases enc <;> rfl
  | dbMiss => rfl
  | exn => rfl

theorem thumb_worker_emit_length (r : PendingRequest) (o : WorkerOutcome) :
    (thumb_worker_emit r o).length = 1 := by
  cases o with
  | diskHit png => rfl
  | dbHit tb enc => cases enc <;> rfl
  | dbMiss => rfl
  | exn => rfl

theorem tcPut_queues {V : Type} (s : ThumbCacheState V) (k : ThumbKey) (v : V) :
    (tcPut s k v).thumb_req_q = s.thumb_req_q ∧
    (tcPut s k v).thumb_done_q = s.thumb_done_q ∧
    (tcPut s k v).thumb_inflight = s.thumb_inflight :=
  ⟨rfl, rfl, rfl⟩

theorem inflightInv_sysRequest {V : Type} {sys : ThumbSystem V}
    (idx : Nat) (cid p : String) (h : InflightInv sys) :
    InflightInv (sysRequest idx cid p sys) := by
  obtain ⟨hnd, hperm⟩ := h
  by_cases hk : ((cid, thumb_max) : ThumbKey) ∈ sys.tc.thumb_inflight
  · rw [InflightInv, sysRequest, check_inflight_of_mem idx p hk]
    exact ⟨hnd, hperm⟩
  · rw [InflightInv, sysRequest, check_inflight_of_not_mem idx p hk]
    refine ⟨by simp [List.nodup_append, hnd, hk], ?_⟩
    refine List.perm_iff_count.mpr (fun a => ?_)
    have hc := hperm.count_eq a
    simp only [List.count_append, List.map_append, keyOfReq] at hc ⊢
    simp only [List.map_cons, List.map_nil, List.count_append, keyOfReq]
    omega

theorem inflightInv_sysDequeue {V : Type} {sys : ThumbSystem V}
    (h : InflightInv sys) : InflightInv (sysDequeue sys) := by
  obtain ⟨hnd, hperm⟩ := h
  cases hw : sys.worker_current with
  | some r =>
    have hs : sysDequeue sys = sys := by rw [sysDequeue, hw]
    rw [hs]
    exact ⟨hnd, hperm⟩
  | none =>
    cases hq : sys.tc.thumb_req_q with
    | nil =>
      have hs : sysDequeue sys = sys := by rw [sysDequeue, hw, hq]
      rw [hs]
      exact ⟨hnd, hperm⟩
    | cons r rest =>
      have hs : sysDequeue sys =
          { tc := { sys.tc with thumb_req_q := rest }, worker_current := some r } := by
        rw [sysDequeue, hw, hq]
      rw [InflightInv, hs]
      refine ⟨hnd, ?_⟩
      rw [hw, hq] at hperm
      refine List.perm_iff_count.mpr (fun a => ?_)
      have hc := hperm.count_eq a
      simp only [List.map_cons, Option.map_none', Option.toList_none, List.append_nil,
        List.count_append, List.count_cons, Option.map_some', Option.toList_some,
        List.count_nil] at hc ⊢
      omega

theorem inflightInv_sysComplete {V : Type} {sys : ThumbSystem V}
    (o : WorkerOutcome) (h : InflightInv sys) :
    InflightInv (sysComplete o sys) := by
  obtain ⟨hnd, hperm⟩ := h
  cases hw : sys.worker_current with
  | none =>
    have hs : sysComplete o sys = sys := by rw [sysComplete, hw]
    rw [hs]
    exact ⟨hnd, hperm⟩
  | some r =>
    have hs : sysComplete o sys =
        { tc := { sys.tc with
            thumb_done_q := sys.tc.thumb_done_q ++ thumb_worker_emit r o },
          worker_current := none } := by
      rw [sysComplete, hw]
    rw [InflightInv, hs]
    refine ⟨hnd, ?_⟩
    rw [hw] at hperm
    refine List.perm_iff_count.mpr (fun a => ?_)
    have hc := hperm.count_eq a
    simp only [List.map_append, thumb_worker_emit_keys, Option.map_some',
      Option.toList_some, List.count_append, List.count_cons, List.map_cons,
      List.map_nil, Option.map_none', Option.toList_none, List.count_nil] at hc ⊢
    omega

theorem inflightInv_tcPut {V : Type} {s : ThumbCacheState V}
    {w : Option PendingRequest} (k : ThumbKey) (v : V)
    (h : InflightInv ⟨s, w⟩) : InflightInv ⟨tcPut s k v, w⟩ := h

theorem setDiscard_sublist (k : ThumbKey) (l : List ThumbKey) :
    (setDiscard k l).Sublist l := by
  induction l with
  | nil => exact List.Sublist.refl _
  | cons x t ih =>
    rw [setDiscard]
    split
    · exact (List.sublist_cons_self x t)
    · exact List.Sublist.cons₂ x ih

theorem setDiscard_append_cons (k : ThumbKey) {l₁ : List ThumbKey}
    (l₂ : List ThumbKey) (h : k ∉ l₁) :
    setDiscard k (l₁ ++ k :: l₂) = l₁ ++ l₂ := by
  induction l₁ with
  | nil => simp [setDiscard]
  | cons x t ih =>
    simp only [List.mem_cons] at h
    push_neg at h
    rw [List.cons_append, setDiscard, if_neg (fun e => h.1 e.symm), ih h.2,
      List.cons_append]

theorem setDiscard_perm {l X : List ThumbKey} {k : ThumbKey}
    (hnd : l.Nodup) (hperm : l.Perm (k :: X)) :
    (setDiscard k l).Perm X := by
  have hk : k ∈ l := hperm.mem_iff.mpr (List.mem_cons_self _ _)
  obtain ⟨l₁, l₂, rfl⟩ := List.append_of_mem hk
  have hk1 : k ∉ l₁ := by
    intro hmem
    have := List.disjoint_of_nodup_append hnd
    exact this hmem (List.mem_cons_self _ _)
  rw [setDiscard_append_cons k l₂ hk1]
  have h1 : (k :: (l₁ ++ l₂)).Perm (k :: X) :=
    List.Perm.trans List.perm_middle.symm hperm
  exact List.Perm.cons_inv h1

theorem pollLoop_inv {V : Type} (photoOf : Bytes → Option V) (fuel : Nat)
    {s : ThumbCacheState V} {w : Option PendingRequest}
    (h : InflightInv ⟨s, w⟩) : InflightInv ⟨pollLoop photoOf fuel s, w⟩ := by
  induction fuel generalizing s with
  | zero => exact h
  | succ f ih =>
    cases hq : s.thumb_done_q with
    | nil =>
      have hs : pollLoop photoOf (f + 1) s = s := by rw [pollLoop, hq]
      rw [hs]
      exact h
    | cons d rest =>
      obtain ⟨hnd, hperm⟩ := h
      rw [hq] at hperm
      have h1 : InflightInv
          { tc :=
              { s with
                thumb_done_q := rest,
                thumb_inflight := setDiscard (keyOfDone d) s.thumb_inflight },
            worker_current := w } := by

        refine ⟨(setDiscard_sublist _ _).nodup hnd, ?_⟩
        simp only [List.map_cons] at hperm
        have hperm' : s.thumb_inflight.Perm
            (keyOfDone d ::
              ((List.map keyOfReq s.thumb_req_q ++
                  (Option.map keyOfReq w).toList) ++
                List.map keyOfDone rest)) :=
          List.Perm.trans hperm List.perm_middle
        exact setDiscard_perm hnd hperm'
      cases hp : d.png with
      | none =>
        simp only [pollLoop, hq, hp]
        exact ih h1
      | some png =>
        cases hph : photoOf png with
        | none =>
          simp only [pollLoop, hq, hp, hph]
          exact ih h1
        | some photo =>
          simp only [pollLoop, hq, hp, hph]
          exact ih (inflightInv_tcPut _ _ h1)

theorem pollLoop_drains {V : Type} (photoOf : Bytes → Option V) (fuel : Nat)
    (s : ThumbCacheState V) (hf : s.thumb_done_q.length ≤ fuel) :
    (pollLoop photoOf fuel s).thumb_done_q = [] ∧
    (pollLoop photoOf fuel s).thumb_req_q = s.thumb_req_q := by
  induction fuel generalizing s with
  | zero =>
    have hq0 : s.thumb_done_q = [] := by
      cases hq : s.thumb_done_q with
      | nil => rfl
      | cons d rest => rw [hq] at hf; simp at hf
    exact ⟨hq0, rfl⟩
  | succ f ih =>
    cases hq : s.thumb_done_q with
    | nil =>
      have hs : pollLoop photoOf (f + 1) s = s := by rw [pollLoop, hq]
      rw [hs]
      exact ⟨hq, rfl⟩
    | cons d rest =>
      have hrest : rest.length ≤ f := by
        rw [hq] at hf
        simpa using hf
      cases hp : d.png with
      | none =>
        simp only [pollLoop, hq, hp]
        exact ih
          { s with
            thumb_done_q := rest,
            thumb_inflight := setDiscard (keyOfDone d) s.thumb_inflight }
          hrest
      | some png =>
        cases hph : photoOf png with
        | none =>
          simp only [pollLoop, hq, hp, hph]
          exact ih
            { s with
              thumb_done_q := rest,
              thumb_inflight := setDiscard (keyOfDone d) s.thumb_inflight }
            hrest
        | some photo =>
          simp only [pollLoop, hq, hp, hph]
          exact ih
            (tcPut
              { s with
                thumb_done_q := rest,
                thumb_inflight := setDiscard (keyOfDone d) s.thumb_inflight }
              (keyOfDone d) photo)
            hrest

theorem sysPoll_removes {V : Type} (photoOf : Bytes → Option V)
    {sys : ThumbSystem V} {k : ThumbKey} (hinv : InflightInv sys)
    (hk : k ∈ sys.tc.thumb_done_q.map keyOfDone)
    (hlen : sys.tc.thumb_done_q.length ≤ 40) :
    k ∉ (sysPoll photoOf sys).tc.thumb_inflight ∧
    (sysPoll photoOf sys).tc.thumb_done_q = [] := by
  obtain ⟨hnd, hperm⟩ := hinv
  have hdrain := pollLoop_drains photoOf 40 sys.tc hlen
  have hinv' : InflightInv ⟨pollLoop photoOf 40 sys.tc, sys.worker_current⟩ :=
    pollLoop_inv photoOf 40 ⟨hnd, hperm⟩
  obtain ⟨hnd', hperm'⟩ := hinv'
  refine ⟨?_, hdrain.1⟩
  intro hkmem
  have hkR := (hperm'.mem_iff).mp hkmem
  simp only at hkR
  rw [hdrain.1, hdrain.2] at hkR
  simp only [List.map_nil, List.append_nil] at hkR
  have hndR := (hperm.nodup_iff).mp hnd
  exact List.disjoint_of_nodup_append hndR hkR hk

/-! ### Claim C3 -/

/-- C3: per-key dedup of generation jobs.  `check_inflight` enqueues a
`PendingRequest` exactly when the key is not inflight (inserting it at the
same time) and drops the request otherwise, so `n ≥ 1` requests for the
same key starting outside the inflight set enqueue exactly one request;
the invariant "the duplicate-free inflight set holds exactly the keys of
the outstanding jobs (at most one job per key)" is preserved by every
step of the system (UI request, worker dequeue, worker completion, poll);
the worker and dequeue steps never remove inflight membership, and the
poll tick that consumes a key's `CompletedResult` removes that key from
the inflight set. -/
theorem C3_inflight_dedup {V : Type} (photoOf : Bytes → Option V)
    (s : ThumbCacheState V) (sys : ThumbSystem V) (idx : Nat) (cid p : String)
    (n : Nat) (k : ThumbKey)
    (hn : 1 ≤ n)
    (hnot : ((cid, thumb_max) : ThumbKey) ∉ s.thumb_inflight)
    (hinv : InflightInv sys)
    (hk : k ∈ sys.tc.thumb_done_q.map keyOfDone)
    (hlen : sys.tc.thumb_done_q.length ≤ 40) :
    (check_inflight s idx cid p =
      (true, { s with
        thumb_inflight := s.thumb_inflight ++ [(cid, thumb_max)],
        thumb_req_q := s.thumb_req_q ++ [⟨idx, p, cid⟩] })) ∧
    (∀ (s' : ThumbCacheState V) (idx' : Nat) (cid' p' : String),
        ((cid', thumb_max) : ThumbKey) ∈ s'.thumb_inflight →
        check_inflight s' idx' cid' p' = (false, s')) ∧
    ((tcRequestN s idx cid p n).thumb_req_q = s.thumb_req_q ++ [⟨idx, p, cid⟩]) ∧
    (∀ (sys' : ThumbSystem V) (idx' : Nat) (cid' p' : String),
        InflightInv sys' → InflightInv (sysRequest idx' cid' p' sys')) ∧
    (∀ sys' : ThumbSystem V, InflightInv sys' → InflightInv (sysDequeue sys')) ∧
    (∀ (sys' : ThumbSystem V) (o' : WorkerOutcome),
        InflightInv sys' → InflightInv (sysComplete o' sys')) ∧
    (∀ sys' : ThumbSystem V, InflightInv sys' → InflightInv (sysPoll photoOf sys')) ∧
    (∀ sys' : ThumbSystem V,
        (sysDequeue sys').tc.thumb_inflight = sys'.tc.thumb_inflight) ∧
    (∀ (sys' : ThumbSystem V) (o' : WorkerOutcome),
        (sysComplete o' sys').tc.thumb_inflight = sys'.tc.thumb_inflight) ∧
    (k ∉ (sysPoll photoOf sys).tc.thumb_inflight ∧
      (sysPoll photoOf sys).tc.thumb_done_q = []) := by
  refine ⟨check_inflight_of_not_mem idx p hnot,
    fun s' idx' cid' p' h' => check_inflight_of_mem idx' p' h',
    by rw [tcRequestN_one idx p n hn hnot],
    fun sys' idx' cid' p' h' => inflightInv_sysRequest idx' cid' p' h',
    fun sys' h' => inflightInv_sysDequeue h',
    fun sys' o' h' => inflightInv_sysComplete o' h',
    fun sys' h' => pollLoop_inv photoOf 40 h',
    ?_, ?_, sysPoll_removes photoOf hinv hk hlen⟩
  · intro sys'
    cases hw : sys'.worker_current with
    | some r =>
      have hs : sysDequeue sys' = sys' := by rw [sysDequeue, hw]
      rw [hs]
    | none =>
      cases hq : sys'.tc.thumb_req_q with
      | nil =>
        have hs : sysDequeue sys' = sys' := by rw [sysDequeue, hw, hq]
        rw [hs]
      | cons r rest =>
        have hs : sysDequeue sys' =
            { tc := { sys'.tc with thumb_req_q := rest },
              worker_current := some r } := by
          rw [sysDequeue, hw, hq]
        rw [hs]
  · intro sys' o'
    cases hw : sys'.worker_current with
    | none =>
      have hs : sysComplete o' sys' = sys' := by rw [sysComplete, hw]
      rw [hs]
    | some r =>
      have hs : sysComplete o' sys' =
          { tc := { sys'.tc with
              thumb_done_q := sys'.tc.thumb_done_q ++ thumb_worker_emit r o' },
            worker_current := none } := by
        rw [sysComplete, hw]
      rw [hs]

/-- Witness for C3 at concrete inputs: one inflight key whose completed
result sits in the completion queue; three repeated requests for a fresh
key enqueue exactly one `PendingRequest`; the poll tick clears the
consumed key's inflight membership. -/
theorem C3_inflight_dedup_witness :
    ((tcRequestN (initThumbCache Unit) 0 "h2" "p2" 3).thumb_req_q =
      [⟨0, "p2", "h2"⟩]) ∧
    (("h", 200) ∉
      (sysPoll (fun _ => (none : Option Unit))
        ⟨⟨[], [], [⟨0, "p", "h", none⟩], [("h", 200)]⟩, none⟩).tc.thumb_inflight) := by
  have h := C3_inflight_dedup (fun _ => (none : Option Unit))
    (initThumbCache Unit)
    ⟨⟨[], [], [⟨0, "p", "h", none⟩], [("h", 200)]⟩, none⟩
    0 "h2" "p2" 3 ("h", 200)
    (by omega) (by decide)
    (by
      refine ⟨by decide, ?_⟩
      simp [keyOfDone, thumb_max])
    (by simp [keyOfDone, thumb_max]) (by decide)
  exact ⟨by simpa using h.2.2.1, h.2.2.2.2.2.2.2.2.2.1⟩

/-! ### DiskCache filesystem lemmas -/

theorem runWriteEvts_tmpWrites (tmp p : PathT) (cs : List Bytes) (fs : FS)
    (hne : tmp ≠ p) :
    runWriteEvts tmp p (cs.map WriteEvt.tmpWrite) fs p = fs p := by
  induction cs generalizing fs with
  | nil => rfl
  | cons c t ih =>
    rw [List.map_cons, runWriteEvts, List.foldl_cons]
    have hstep : applyWriteEvt tmp p fs (WriteEvt.tmpWrite c) p = fs p := by
      rw [applyWriteEvt, fsWrite, if_neg (fun e => hne e.symm)]
    calc (t.map WriteEvt.tmpWrite).foldl (applyWriteEvt tmp p)
          (applyWriteEvt tmp p fs (WriteEvt.tmpWrite c)) p
        = applyWriteEvt tmp p fs (WriteEvt.tmpWrite c) p := ih _
      _ = fs p := hstep

theorem runWriteEvts_last_tmp (tmp p : PathT) (cs : List Bytes) (c : Bytes) (fs : FS) :
    runWriteEvts tmp p ((cs ++ [c]).map WriteEvt.tmpWrite) fs tmp = some c := by
  rw [List.map_append, List.map_cons, List.map_nil, runWriteEvts, List.foldl_append,
    List.foldl_cons, List.foldl_nil, applyWriteEvt, fsWrite, if_pos rfl]

theorem write_trace_take_pre (partials : List Bytes) (png : Bytes) (i : Nat)
    (h : i ≤ partials.length + 1) :
    (disk_cache_write_trace partials png).take i =
      ((partials ++ [png]).take i).map WriteEvt.tmpWrite := by
  rw [disk_cache_write_trace, List.take_append_of_le_length (by simp; omega),
    List.map_take]

theorem runWriteEvts_full (tmp p : PathT) (partials : List Bytes) (png : Bytes)
    (fs : FS) :
    runWriteEvts tmp p (disk_cache_write_trace partials png) fs p = some png := by
  rw [disk_cache_write_trace, runWriteEvts, List.foldl_append, List.foldl_cons,
    List.foldl_nil, applyWriteEvt, fsRename, if_pos rfl]
  exact runWriteEvts_last_tmp tmp p partials png fs

theorem natDigits_ne_nil (n : Nat) : natDigits n ≠ [] := by
  rw [natDigits, natDigitsAux]
  split
  · simp
  · simp

theorem dcFileName_getLast (safe : Str) (size : Nat) :
    (dcFileName safe size).getLast? = some 'g' := by
  rw [dcFileName]
  rw [List.append_assoc, List.append_assoc, List.getLast?_append_of_ne_nil _ (by simp),
    List.getLast?_append_of_ne_nil _ (by simp), List.getLast?_append_of_ne_nil _ (by simp)]
  rfl

theorem tmp_path_ne_final (sha1hex : Str → Str) (root : PathT) (cid cid' : Str)
    (size size' : Nat) :
    disk_cache_tmp_path sha1hex root cid size ≠ disk_cache_path sha1hex root cid' size' := by
  intro he
  rw [disk_cache_tmp_path, disk_cache_path] at he
  have he2 := List.append_cancel_left he
  have he3 : dcFileName (dcSafe sha1hex cid) size ++ ".tmp".data =
      dcFileName (dcSafe sha1hex cid') size' := by
    have hpair := he2
    simp only [List.cons.injEq, and_true] at hpair
    exact hpair.2
  have hg := dcFileName_getLast (dcSafe sha1hex cid') size'
  rw [← he3] at hg
  rw [List.getLast?_append_of_ne_nil _ (by simp)] at hg
  exact absurd hg (by decide)

/-! ### Claim C4 -/

/-- C4: a `disk_cache_read` racing an in-progress `disk_cache_write` for
the same key never sees a truncated file.  The temporary path never
collides with any cache file path; every prefix of the writer's mutation
trace that stops before the final atomic rename leaves the target path's
content — and hence the reader's result — exactly as before the write,
and the completed trace makes the target hold the full new bytes, which
the reader then returns. -/
theorem C4_disk_write_atomic (sha1hex : Str → Str) (root : PathT) (cid : Str)
    (size : Nat) (fs : FS) (partials : List Bytes) (png : Bytes) (i : Nat)
    (hi : i ≤ partials.length + 1) (hpng : png ≠ []) :
    (∀ (cid' : Str) (size' : Nat),
        disk_cache_tmp_path sha1hex root cid size ≠
          disk_cache_path sha1hex root cid' size') ∧
    (runWriteEvts (disk_cache_tmp_path sha1hex root cid size)
        (disk_cache_path sha1hex root cid size)
        ((disk_cache_write_trace partials png).take i) fs
        (disk_cache_path sha1hex root cid size) =
      fs (disk_cache_path sha1hex root cid size)) ∧
    (disk_cache_read true false
        (runWriteEvts (disk_cache_tmp_path sha1hex root cid size)
          (disk_cache_path sha1hex root cid size)
          ((disk_cache_write_trace partials png).take i) fs)
        sha1hex root cid size =
      disk_cache_read true false fs sha1hex root cid size) ∧
    (runWriteEvts (disk_cache_tmp_path sha1hex root cid size)
        (disk_cache_path sha1hex root cid size)
        (disk_cache_write_trace partials png) fs
        (disk_cache_path sha1hex root cid size) = some png) ∧
    (disk_cache_read true false
        (runWriteEvts (disk_cache_tmp_path sha1hex root cid size)
          (disk_cache_path sha1hex root cid size)
          (disk_cache_write_trace partials png) fs)
        sha1hex root cid size = some png) := by
  have hne : disk_cache_tmp_path sha1hex root cid size ≠
      disk_cache_path sha1hex root cid size := tmp_path_ne_final sha1hex root cid cid size size
  have hpre : runWriteEvts (disk_cache_tmp_path sha1hex root cid size)
      (disk_cache_path sha1hex root cid size)
      ((disk_cache_write_trace partials png).take i) fs
      (disk_cache_path sha1hex root cid size) =
      fs (disk_cache_path sha1hex root cid size) := by
    rw [write_trace_take_pre partials png i hi]
    exact runWriteEvts_tmpWrites _ _ _ _ hne
  have hfull := runWriteEvts_full (disk_cache_tmp_path sha1hex root cid size)
    (disk_cache_path sha1hex root cid size) partials png fs
  refine ⟨fun cid' size' => tmp_path_ne_final sha1hex root cid cid' size size',
    hpre, ?_, hfull, ?_⟩
  · rw [disk_cache_read, disk_cache_read]
    simp only [Bool.true_eq_false, if_false, hpre]
  · rw [disk_cache_read]
    simp only [Bool.true_eq_false, if_false, hfull]
    simp [hpng]

/-- Witness for C4 at concrete inputs: one partial tmp flush, then the
full write; the reader misses while the write is in progress (the target
did not exist before) and reads the complete new bytes afterwards. -/
theorem C4_disk_write_atomic_witness :
    (disk_cache_read true false
        (runWriteEvts (disk_cache_tmp_path (fun _ => []) [] "id".data 200)
          (disk_cache_path (fun _ => []) [] "id".data 200)
          ((disk_cache_write_trace [[7]] [7, 8]).take 1) (fun _ => none))
        (fun _ => []) [] "id".data 200 =
      disk_cache_read true false (fun _ => none) (fun _ => []) [] "id".data 200) ∧
    (disk_cache_read true false
        (runWriteEvts (disk_cache_tmp_path (fun _ => []) [] "id".data 200)
          (disk_cache_path (fun _ => []) [] "id".data 200)
          (disk_cache_write_trace [[7]] [7, 8]) (fun _ => none))
        (fun _ => []) [] "id".data 200 = some [7, 8]) := by
  have h := C4_disk_write_atomic (fun _ => []) [] "id".data 200 (fun _ => none)
    [[7]] [7, 8] 1 (by decide) (by decide)
  exact ⟨h.2.2.1, h.2.2.2.2⟩

/-! ### Claim C10 -/

/-- C10: `disk_cache_read` yields absent for a missing file, under any
I/O error, and also when the file exists with zero-length content; it
returns the content only when it is nonempty. -/
theorem C10_read_empty_as_miss (fs0 fsE fs : FS) (sha1hex : Str → Str)
    (root : PathT) (cid : Str) (size : Nat) (bs : Bytes)
    (hmiss : fs0 (disk_cache_path sha1hex root cid size) = none)
    (hempty : fsE (disk_cache_path sha1hex root cid size) = some [])
    (hsome : fs (disk_cache_path sha1hex root cid size) = some bs)
    (hne : bs ≠ []) :
    disk_cache_read true false fs0 sha1hex root cid size = none ∧
    disk_cache_read true false fsE sha1hex root cid size = none ∧
    (∀ (fs' : FS) (en : Bool), disk_cache_read en true fs' sha1hex root cid size = none) ∧
    disk_cache_read true false fs sha1hex root cid size = some bs := by
  refine ⟨?_, ?_, ?_, ?_⟩
  · rw [disk_cache_read]
    simp [hmiss]
  · rw [disk_cache_read]
    simp [hempty]
  · intro fs' en
    rw [disk_cache_read]
    cases en <;> simp
  · rw [disk_cache_read]
    simp [hsome, hne]

/-- Witness for C10 at concrete inputs: an empty cache file is read as a
miss; a nonempty one is returned. -/
theorem C10_read_empty_as_miss_witness :
    disk_cache_read true false
        (fun q => if q = disk_cache_path (fun _ => []) [] "id".data 200
          then some [] else none)
        (fun _ => []) [] "id".data 200 = none ∧
    disk_cache_read true false
        (fun q => if q = disk_cache_path (fun _ => []) [] "id".data 200
          then some [3] else none)
        (fun _ => []) [] "id".data 200 = some [3] := by
  have h := C10_read_empty_as_miss (fun _ => none)
    (fun q => if q = disk_cache_path (fun _ => []) [] "id".data 200
      then some [] else none)
    (fun q => if q = disk_cache_path (fun _ => []) [] "id".data 200
      then some [3] else none)
    (fun _ => []) [] "id".data 200 [3]
    rfl (by simp) (by simp) (by decide)
  exact ⟨h.2.1, h.2.2.2⟩

/-! ### Claim C5 -/

/-- C5: no error crosses the queue boundary.  `disk_cache_read` under any
I/O error returns absent (it is a total function of its error oracle —
nothing is raised); an aborted `disk_cache_write` leaves the target path
untouched (a no-op write); the worker pushes exactly one
`CompletedResult` onto the completion queue per dequeued request, and
every failing outcome (source unavailable, decode/transform error, other
exception) is converted into a result with `bytes = absent`. -/
theorem C5_no_error_crosses_queue {V : Type} (sys : ThumbSystem V)
    (r : PendingRequest) (o : WorkerOutcome) (sha1hex : Str → Str)
    (root : PathT) (cid : Str) (size : Nat) (fs : FS)
    (partials : List Bytes) (png : Bytes) (i : Nat)
    (hw : sys.worker_current = some r)
    (hi : i ≤ partials.length + 1) :
    (∀ (fs' : FS) (en : Bool),
        disk_cache_read en true fs' sha1hex root cid size = none) ∧
    (runWriteEvts (disk_cache_tmp_path sha1hex root cid size)
        (disk_cache_path sha1hex root cid size)
        ((disk_cache_write_trace partials png).take i) fs
        (disk_cache_path sha1hex root cid size) =
      fs (disk_cache_path sha1hex root cid size)) ∧
    (∀ (r' : PendingRequest) (o' : WorkerOutcome),
        (thumb_worker_emit r' o').length = 1) ∧
    ((sysComplete o sys).tc.thumb_done_q =
      sys.tc.thumb_done_q ++ thumb_worker_emit r o) ∧
    (∀ (r' : PendingRequest) (o' : WorkerOutcome), o'.failed = true →
        thumb_worker_emit r' o' = [⟨r'.index, r'.path_text, r'.cache_id, none⟩]) := by
  refine ⟨?_, ?_, fun r' o' => thumb_worker_emit_length r' o', ?_, ?_⟩
  · intro fs' en
    rw [disk_cache_read]
    cases en <;> simp
  · rw [write_trace_take_pre partials png i hi]
    exact runWriteEvts_tmpWrites _ _ _ _
      (tmp_path_ne_final sha1hex root cid cid size size)
  · have hs : sysComplete o sys =
        { tc := { sys.tc with
            thumb_done_q := sys.tc.thumb_done_q ++ thumb_worker_emit r o },
          worker_current := none } := by
      rw [sysComplete, hw]
    rw [hs]
  · intro r' o' hf
    cases o' with
    | diskHit png' => exact absurd hf (by rw [WorkerOutcome.failed]; simp)
    | dbHit tb enc =>
      cases enc with
      | none => rfl
      | some png' => exact absurd hf (by rw [WorkerOutcome.failed]; simp)
    | dbMiss => rfl
    | exn => rfl

/-- Witness for C5 at concrete inputs: completing a request whose body
raised pushes exactly one absent result onto the completion queue. -/
theorem C5_no_error_crosses_queue_witness :
    disk_cache_read true true (fun _ => some [1]) (fun _ => []) [] "id".data 200 = none ∧
    (sysComplete WorkerOutcome.exn
        (⟨initThumbCache Unit, some ⟨0, "p", "h"⟩⟩ : ThumbSystem Unit)).tc.thumb_done_q =
      [⟨0, "p", "h", none⟩] := by
  have h := @C5_no_error_crosses_queue Unit
    ⟨initThumbCache Unit, some ⟨0, "p", "h"⟩⟩ ⟨0, "p", "h"⟩ WorkerOutcome.exn
    (fun _ => []) [] "id".data 200 (fun _ => none) [] [] 0 rfl (by omega)
  refine ⟨h.1 (fun _ => some [1]) true, ?_⟩
  have h4 := h.2.2.2.1
  simpa [thumb_worker_emit, initThumbCache] using h4

/-! ### Path-derivation lemmas -/

theorem toNat_ofNat_of_le (n : Nat) (h1 : n ≤ 200) : (Char.ofNat n).toNat = n := by
  have hv : n.isValidChar := Or.inl (by omega)
  simp only [Char.ofNat, hv, reduceDIte, Char.ofNatAux, Char.toNat]
  rfl

theorem digitChar_toNat (d : Nat) (h : d < 10) : (Nat.digitChar d).toNat = 48 + d := by
  interval_cases d <;> decide

theorem natDigitsAux_val : ∀ (fuel n : Nat), n < fuel →
    decValue (natDigitsAux fuel n) = n := by
  intro fuel
  induction fuel with
  | zero => omega
  | succ f ih =>
    intro n hn
    rw [natDigitsAux]
    split
    · next h => simp [decValue, digitChar_toNat n h]
    · next h =>
      have hd : n / 10 < f := by
        have := Nat.div_lt_self (n := n) (by omega) (by omega : 1 < 10)
        omega
      have ihv := ih (n / 10) hd
      simp only [decValue, List.foldl_append] at ihv ⊢
      rw [ihv, List.foldl_cons, List.foldl_nil,
        digitChar_toNat (n % 10) (Nat.mod_lt _ (by omega))]
      omega

theorem natDigits_inj {m n : Nat} (h : natDigits m = natDigits n) : m = n := by
  have hm := natDigitsAux_val (m + 1) m (by omega)
  have hn := natDigitsAux_val (n + 1) n (by omega)
  rw [natDigits, natDigits] at h
  rw [h] at hm
  omega

theorem pyLower_hex {c : Char} (h : isHexDigitChar c = true) :
    isLowerHexChar (pyLower c) = true := by
  rw [isHexDigitChar, decide_eq_true_eq] at h
  rw [pyLower, isLowerHexChar]
  split
  · next hc =>
    rw [toNat_ofNat_of_le (c.toNat + 32) (by omega)]
    simp only [decide_eq_true_eq]
    omega
  · next hc =>
    simp only [decide_eq_true_eq]
    push_neg at hc
    omega

theorem dcSafe_lower_hex (sha1hex : Str → Str) (cid : Str)
    (hsha : ∀ s, (sha1hex s).all isHexDigitChar = true) :
    (dcSafe sha1hex cid).all isLowerHexChar = true := by
  rw [dcSafe]
  simp only
  set t := pyStrip (if cid = [] then "unknown".data else cid) with ht
  rw [List.all_eq_true]
  intro c hc
  rw [List.mem_map] at hc
  obtain ⟨c', hc', rfl⟩ := hc
  apply pyLower_hex
  by_cases hhex : hexLike t = true
  · rw [if_pos hhex] at hc'
    unfold hexLike at hhex
    simp only [Bool.and_eq_true, List.all_eq_true] at hhex
    exact hhex.2 c' hc'
  · rw [if_neg hhex] at hc'
    have hall := hsha t
    rw [List.all_eq_true] at hall
    exact hall c' hc'

theorem lower_hex_ne_underscore {c : Char} (h : isLowerHexChar c = true) :
    c ≠ '_' := by
  intro he
  rw [he] at h
  exact absurd h (by decide)

theorem underscore_split_inj : ∀ {a₁ a₂ b₁ b₂ : List Char},
    '_' ∉ a₁ → '_' ∉ a₂ →
    a₁ ++ '_' :: b₁ = a₂ ++ '_' :: b₂ → a₁ = a₂ ∧ b₁ = b₂ := by
  intro a₁
  induction a₁ with
  | nil =>
    intro a₂ b₁ b₂ _ h₂ h
    cases a₂ with
    | nil => simpa using h
    | cons x t =>
      rw [List.nil_append, List.cons_append] at h
      have hx : x = '_' := by
        have := congrArg (fun l => l.head?) h
        simpa using this.symm
      exact absurd (hx ▸ List.mem_cons_self x t) h₂
  | cons x t ih =>
    intro a₂ b₁ b₂ h₁ h₂ h
    cases a₂ with
    | nil =>
      rw [List.nil_append, List.cons_append] at h
      have hx : x = '_' := by
        have := congrArg (fun l => l.head?) h
        simpa using this
      exact absurd (hx ▸ List.mem_cons_self x t) h₁
    | cons y u =>
      rw [List.cons_append, List.cons_append] at h
      have hxy : x = y ∧ t ++ '_' :: b₁ = u ++ '_' :: b₂ := by
        have h1 := congrArg (fun l => l.head?) h
        have h2 := congrArg (fun l => l.tail) h
        simp only [List.head?_cons, Option.some.injEq, List.tail_cons] at h1 h2
        exact ⟨h1, h2⟩
      have hrec := ih (fun hm => h₁ (List.mem_cons_of_mem x hm))
        (fun hm => h₂ (List.mem_cons_of_mem y hm)) hxy.2
      exact ⟨by rw [hxy.1, hrec.1], hrec.2⟩

theorem dcFileName_inj {safe₁ safe₂ : Str} {size₁ size₂ : Nat}
    (h₁ : safe₁.all isLowerHexChar = true) (h₂ : safe₂.all isLowerHexChar = true)
    (h : dcFileName safe₁ size₁ = dcFileName safe₂ size₂) :
    safe₁ = safe₂ ∧ size₁ = size₂ := by
  rw [dcFileName, dcFileName] at h
  have hshape : ∀ (s : Str) (n : Nat),
      s ++ "_".data ++ natDigits n ++ ".png".data =
        s ++ '_' :: (natDigits n ++ ".png".data) := by
    intro s n
    simp
  rw [hshape, hshape] at h
  have hn₁ : '_' ∉ safe₁ := by
    intro hm
    rw [List.all_eq_true] at h₁
    exact lower_hex_ne_underscore (h₁ _ hm) rfl
  have hn₂ : '_' ∉ safe₂ := by
    intro hm
    rw [List.all_eq_true] at h₂
    exact lower_hex_ne_underscore (h₂ _ hm) rfl
  obtain ⟨hsafe, hrest⟩ := underscore_split_inj hn₁ hn₂ h
  refine ⟨hsafe, natDigits_inj ?_⟩
  exact List.append_cancel_right hrest

/-! ### Claim C6 -/

/-- C6 counterexample: the claim "distinct keys yield distinct paths" is
false — two distinct identifiers that differ only in hex-digit case
derive the same file path; and the normalized identifier is not
fixed-length — already-hex-like ids keep their original length (here 16
and 17 characters). -/
theorem C6_path_counterexample :
    (disk_cache_path (fun _ => []) [] "AAAAAAAAAAAAAAAA".data 200 =
      disk_cache_path (fun _ => []) [] "aaaaaaaaaaaaaaaa".data 200) ∧
    ("AAAAAAAAAAAAAAAA".data ≠ "aaaaaaaaaaaaaaaa".data) ∧
    ((dcSafe (fun _ => []) "aaaaaaaaaaaaaaaa".data).length = 16) ∧
    ((dcSafe (fun _ => []) "aaaaaaaaaaaaaaaaa".data).length = 17) := by
  refine ⟨by decide, by decide, by decide, by decide⟩

/-- C6 (amended): the derived path is a pure function of the key with the
claimed shape `<root>/<first-2>/<normId>_<size>.png`; the normalized
identifier is canonical lowercase hexadecimal (already-hex-like ids are
kept at their original length, others are hashed); and two keys derive
the same path only when their normalized identifiers and sizes agree — in
particular keys with distinct normalized identifiers, or with equal
identifiers and distinct sizes, yield distinct paths.  (`sha1hex` is the
opaque `hashlib.sha1(...).hexdigest()`, assumed only to emit hex
digits.) -/
theorem C6_path_derivation (sha1hex : Str → Str) (root : PathT)
    (cid cid₁ cid₂ : Str) (size size₁ size₂ : Nat)
    (hsha : ∀ s, (sha1hex s).all isHexDigitChar = true)
    (heq : disk_cache_path sha1hex root cid₁ size₁ =
      disk_cache_path sha1hex root cid₂ size₂) :
    (disk_cache_path sha1hex root cid size =
      root ++ [(dcSafe sha1hex cid).take 2,
        dcSafe sha1hex cid ++ "_".data ++ natDigits size ++ ".png".data]) ∧
    ((dcSafe sha1hex cid).all isLowerHexChar = true) ∧
    (dcSafe sha1hex cid₁ = dcSafe sha1hex cid₂ ∧ size₁ = size₂) := by
  refine ⟨rfl, dcSafe_lower_hex sha1hex cid hsha, ?_⟩
  rw [disk_cache_path, disk_cache_path] at heq
  have he2 := List.append_cancel_left heq
  have hfile : dcFileName (dcSafe sha1hex cid₁) size₁ =
      dcFileName (dcSafe sha1hex cid₂) size₂ := by
    have hpair := he2
    simp only [List.cons.injEq, and_true] at hpair
    exact hpair.2
  exact dcFileName_inj (dcSafe_lower_hex sha1hex cid₁ hsha)
    (dcSafe_lower_hex sha1hex cid₂ hsha) hfile

/-- Witness for C6 (amended) at concrete inputs: a path in the claimed
shape, derived from equal paths for the same id and size. -/
theorem C6_path_derivation_witness :
    (disk_cache_path (fun _ => "ffff0000ffff0000".data) [] "zz".data 9 =
      [(dcSafe (fun _ => "ffff0000ffff0000".data) "zz".data).take 2,
        dcSafe (fun _ => "ffff0000ffff0000".data) "zz".data ++ "_".data ++
          natDigits 9 ++ ".png".data]) ∧
    (dcSafe (fun _ => "ffff0000ffff0000".data) "zz".data).all isLowerHexChar = true := by
  have h := C6_path_derivation (fun _ => "ffff0000ffff0000".data) [] "zz".data
    "zz".data "zz".data 9 9 9
    (fun s => show ("ffff0000ffff0000".data).all isHexDigitChar = true by decide) rfl
  exact ⟨by simpa using h.1, h.2.1⟩

/-! ### Viewport lemmas -/

theorem ceil_div_nat (n c : Nat) (hc : 0 < c) :
    ⌈(n : ℚ) / c⌉₊ = (n + c - 1) / c := by
  rcases Nat.eq_zero_or_pos n with hn | hn
  · subst hn
    rw [Nat.cast_zero, zero_div, Nat.ceil_zero]
    rw [eq_comm, Nat.div_eq_of_lt (by omega)]
  · have hcq : (0 : ℚ) < c := by exact_mod_cast hc
    apply le_antisymm
    · rw [Nat.ceil_le, div_le_iff hcq]
      have h1 := Nat.div_add_mod (n + c - 1) c
      have h2 := Nat.mod_lt (n + c - 1) hc
      have hnat : n ≤ (n + c - 1) / c * c := by
        rw [Nat.mul_comm]
        omega
      exact_mod_cast hnat
    · have hle := Nat.le_ceil ((n : ℚ) / c)
      rw [div_le_iff hcq] at hle
      have hnat : n ≤ ⌈(n : ℚ) / c⌉₊ * c := by exact_mod_cast hle
      rw [Nat.div_le_iff_le_mul_add_pred hc]
      rw [Nat.mul_comm] at hnat
      omega

theorem firstRowOf_eq_floor (y : ℤ) (h : Nat) (hy : 0 ≤ y) (hh : 0 < h) :
    ((firstRowOf y h : ℕ) : ℤ) = specFirstRow y h := by
  rw [specFirstRow, Rat.floor_intCast_div_natCast, firstRowOf]
  rw [Int.fdiv_eq_ediv _ (by exact_mod_cast Nat.zero_le h)]
  have hnn : 0 ≤ y / (h : ℤ) := Int.ediv_nonneg hy (by exact_mod_cast Nat.zero_le h)
  rw [max_eq_right hnn, Int.toNat_of_nonneg hnn]

/-! ### Claim C7 -/

/-- C7 counterexample: the claimed formula
`virtual content height = ceil(itemCount / columns) * cardHeight` fails
for an empty result set — the code clamps the virtual height to `1`
while the formula gives `0`. -/
theorem C7_viewport_counterexample :
    virtualTotalH 0 4 270 = 1 ∧ specVirtualH 0 4 270 = 0 ∧ (1 : ℕ) ≠ 0 := by
  refine ⟨rfl, ?_, by decide⟩
  rw [specVirtualH]
  norm_num

/-- C7 (amended): `columns = max(1, viewportWidth // cardWidth)` exactly;
for a nonempty result set the virtual content height equals
`ceil(itemCount / columns) * cardHeight` (for an empty one the code
clamps it to 1); the first visible row is `floor(scrollOffset /
cardHeight)` for nonnegative offsets; and the claim's numeric instances
hold: `itemCount=1000, columns=4, cardHeight=270` gives height `67500`,
and `scrollOffset=540, cardHeight=270` gives first row `2`. -/
theorem C7_viewport_geometry :
    (∀ w cw : Nat, colsOf w cw = max 1 (w / cw)) ∧
    (∀ n c h : Nat, 0 < c → 1 ≤ n → virtualTotalH n c h = specVirtualH n c h) ∧
    (∀ (y : ℤ) (h : Nat), 0 ≤ y → 0 < h →
      ((firstRowOf y h : ℕ) : ℤ) = specFirstRow y h) ∧
    (virtualTotalH 1000 4 270 = 67500) ∧
    (specVirtualH 1000 4 270 = 67500) ∧
    (firstRowOf 540 270 = 2) := by
  refine ⟨fun w cw => rfl, ?_, fun y h hy hh => firstRowOf_eq_floor y h hy hh,
    by norm_num [virtualTotalH], ?_, by decide⟩
  · intro n c h hc hn
    rw [virtualTotalH, specVirtualH, ceil_div_nat n c hc, if_neg (by omega)]
  · rw [specVirtualH, ceil_div_nat 1000 4 (by norm_num)]

/-- Witness for C7 at concrete inputs. -/
theorem C7_viewport_geometry_witness :
    virtualTotalH 10 4 270 = specVirtualH 10 4 270 ∧
    ((firstRowOf 540 270 : ℕ) : ℤ) = specFirstRow 540 270 := by
  have h := C7_viewport_geometry
  exact ⟨h.2.1 10 4 270 (by decide) (by decide),
    h.2.2.1 540 270 (by decide) (by decide)⟩

/-! ### Claim C8 -/

theorem schedule_render_at (now : ℚ) (delay_ms : ℤ) (s : RenderSched) :
    (schedule_render now delay_ms s).render_scheduled_at =
      max (now + (if delay_ms ≤ 1 then 0 else (delay_ms : ℚ) / 1000))
        (s.render_scheduled_at + render_min_interval_s) := rfl

theorem schedule_render_after (now : ℚ) (delay_ms : ℤ) (s : RenderSched) :
    (schedule_render now delay_ms s).render_after =
      some (now +
        (((max 0 ⌊((schedule_render now delay_ms s).render_scheduled_at - now) * 1000⌋ : ℤ) : ℚ)) / 1000) := rfl

/-- C8 counterexample: `scheduleRender(minDelay)` does not arm the timer
for `max(now + minDelay, lastScheduledTime + minInterval)` when
`minDelay = 1 ms`: the code clamps delays `<= 1 ms` to zero, so from the
initial state at `now = 1` the armed target is `1`, while the claimed
formula gives `1001/1000`. -/
theorem C8_schedule_render_counterexample :
    (schedule_render 1 1 initRenderSched).render_scheduled_at = 1 ∧
    specScheduleTarget 1 1 initRenderSched.render_scheduled_at = 1001 / 1000 ∧
    ((1 : ℚ) ≠ 1001 / 1000) := by
  refine ⟨?_, ?_, by norm_num⟩
  · rw [schedule_render_at]
    norm_num [initRenderSched, render_min_interval_s]
  · rw [specScheduleTarget]
    norm_num [initRenderSched, render_min_interval_s]

/-- C8 (amended): every call to `scheduleRender` cancels the previously
pending timer and arms exactly one new timer; the recorded target time is
`max(now + minDelay, lastScheduledTime + 1/30)` for `minDelay > 1 ms`,
while delays of at most 1 ms are clamped to zero delay; the timer is
armed for `now` plus the whole-millisecond truncation of the target's
distance; and the result is independent of any previously pending timer
(the most recent trigger alone determines the pending render). -/
theorem C8_schedule_render_contract (now : ℚ) (delay_ms : ℤ) (s s' : RenderSched)
    (hdelay : 2 ≤ delay_ms) (hsame : s'.render_scheduled_at = s.render_scheduled_at) :
    ((schedule_render now delay_ms s).render_scheduled_at =
      specScheduleTarget now delay_ms s.render_scheduled_at) ∧
    ((schedule_render now delay_ms s).render_after.isSome = true) ∧
    ((schedule_render now delay_ms s).render_after =
      some (now +
        (((max 0 ⌊((schedule_render now delay_ms s).render_scheduled_at - now) * 1000⌋ : ℤ) : ℚ)) / 1000)) ∧
    (schedule_render now delay_ms s' = schedule_render now delay_ms s) := by
  refine ⟨?_, rfl, schedule_render_after now delay_ms s, ?_⟩
  · rw [schedule_render_at, specScheduleTarget, if_neg (by omega)]
  · rw [schedule_render, schedule_render, hsame]

/-- Witness for C8 at concrete inputs: a 60 ms delay from the initial
state arms the timer for exactly the spec formula's target. -/
theorem C8_schedule_render_contract_witness :
    ((schedule_render 0 60 initRenderSched).render_scheduled_at =
      specScheduleTarget 0 60 initRenderSched.render_scheduled_at) ∧
    ((schedule_render 0 60 initRenderSched).render_after.isSome = true) := by
  have h := C8_schedule_render_contract 0 60 initRenderSched initRenderSched
    (by omega) rfl
  exact ⟨h.1, h.2.1⟩

/-! ### Claim C1 -/

theorem fire_gt_aux (now T : ℚ) :
    T - 1 / 1000 < now + ((max 0 ⌊(T - now) * 1000⌋ : ℤ) : ℚ) / 1000 := by
  have h1 : (T - now) * 1000 - 1 < ((⌊(T - now) * 1000⌋ : ℤ) : ℚ) :=
    Int.sub_one_lt_floor _
  have h2 : ((⌊(T - now) * 1000⌋ : ℤ) : ℚ) ≤ ((max 0 ⌊(T - now) * 1000⌋ : ℤ) : ℚ) := by
    exact_mod_cast le_max_right 0 ⌊(T - now) * 1000⌋
  linarith

theorem schedule_render_fire_gt (now : ℚ) (delay_ms : ℤ) (s : RenderSched) :
    (schedule_render now delay_ms s).render_scheduled_at - 1 / 1000 <
      (schedule_render now delay_ms s).render_after.getD 0 := by
  rw [schedule_render_after]
  simp only [Option.getD_some]
  exact fire_gt_aux now (schedule_render now delay_ms s).render_scheduled_at

theorem schedRun_scheduled_ge (n : Nat) :
    ((n : ℚ) + 1) * (1 / 30) ≤ (schedRun (1 / 100) 16 n).render_scheduled_at := by
  induction n with
  | zero =>
    rw [schedRun, schedule_render_at]
    refine le_trans ?_ (le_max_right _ _)
    norm_num [initRenderSched, render_min_interval_s]
  | succ m ih =>
    rw [schedRun, schedule_render_at]
    refine le_trans ?_ (le_max_right _ _)
    rw [render_min_interval_s]
    push_cast
    linarith [ih]

/-- C1 (the code starves renders): drive `_schedule_render(delay_ms=16)`
with an unending stream of triggers 10 ms apart (as `_flush_scroll` does
during continuous wheel scrolling).  After every trigger `n`, the single
pending timer's fire time strictly exceeds the arrival time of trigger
`n+1` — each trigger's `after_cancel` therefore kills the timer before it
can fire, and because `_render_scheduled_at` advances by at least 1/30 s
per call while real time advances only 1/100 s, the pending target runs
away from the clock: no render ever fires while the triggering
continues.  This contradicts the claim that a render eventually fires
under continuous triggering. -/
theorem C1_render_starvation (n : Nat) :
    (((n : ℚ) + 1) * (1 / 30) ≤ (schedRun (1 / 100) 16 n).render_scheduled_at) ∧
    ((schedRun (1 / 100) 16 n).render_after.isSome = true) ∧
    (((n : ℚ) + 1) * (1 / 100) <
      (schedRun (1 / 100) 16 n).render_after.getD 0) := by
  have hT := schedRun_scheduled_ge n
  have hfire : (schedRun (1 / 100) 16 n).render_scheduled_at - 1 / 1000 <
      (schedRun (1 / 100) 16 n).render_after.getD 0 := by
    cases n with
    | zero => rw [schedRun]; exact schedule_render_fire_gt 0 16 initRenderSched
    | succ m =>
      rw [schedRun]
      exact schedule_render_fire_gt _ 16 (schedRun (1 / 100) 16 m)
  have hsome : (schedRun (1 / 100) 16 n).render_after.isSome = true := by
    cases n with
    | zero => rfl
    | succ m => rw [schedRun]; rfl
  refine ⟨hT, hsome, ?_⟩
  have hgap : ((n : ℚ) + 1) * (1 / 100) + 1 / 1000 < ((n : ℚ) + 1) * (1 / 30) := by
    have hn : (0 : ℚ) ≤ (n : ℚ) := by positivity
    nlinarith
  linarith

/-! ### Render-pass lemmas -/

theorem renderSlot_active {V : Type} (ms : List SearchMatch) (si i : Nat)
    (s : ThumbCacheState V) :
    (renderSlot true ms si i s).2 = s ∧
    (∀ v : V, (renderSlot true ms si i s).1 ≠ SlotDisplay.image v) := by
  rw [renderSlot]
  cases hm : ms[si + i]? with
  | none => exact ⟨rfl, by simp⟩
  | some m => exact ⟨rfl, by simp⟩

theorem renderSlots_active {V : Type} (ms : List SearchMatch) (si : Nat)
    (idxs : List Nat) (s : ThumbCacheState V) :
    (renderSlots true ms si idxs s).2 = s ∧
    (∀ v : V, SlotDisplay.image v ∉ (renderSlots true ms si idxs s).1) := by
  induction idxs generalizing s with
  | nil => exact ⟨rfl, by intro v h; simp [renderSlots] at h⟩
  | cons i rest ih =>
    rw [renderSlots]
    obtain ⟨hs, hd⟩ := renderSlot_active ms si i s
    rcases hslot : renderSlot true ms si i s with ⟨d, s'⟩
    rw [hslot] at hs hd
    simp only at hs
    obtain ⟨hs2, hd2⟩ := ih s'
    rcases hrest : renderSlots true ms si rest s' with ⟨ds, s''⟩
    rw [hrest] at hs2 hd2
    simp only at hs2
    simp only [hslot, hrest]
    refine ⟨hs2.trans hs, ?_⟩
    intro v hmem
    rw [List.mem_cons] at hmem
    rcases hmem with he | hm
    · exact hd v he.symm
    · exact hd2 v hm

theorem check_incache_req_q {V : Type} (s : ThumbCacheState V) (i : Nat)
    (cid p : String) :
    ∀ r ∈ (check_incache s i cid p).2.thumb_req_q,
      r ∈ s.thumb_req_q ∨ r = ⟨i, p, cid⟩ := by
  intro r hr
  rw [check_incache] at hr
  split at hr
  · exact Or.inl hr
  · rw [check_inflight] at hr
    split at hr
    · exact Or.inl hr
    · simp only at hr
      rw [List.mem_append] at hr
      rcases hr with h1 | h2
      · exact Or.inl h1
      · exact Or.inr (by simpa using h2)

theorem prefetchLoop_new_reqs {V : Type} (ms : List SearchMatch)
    (VP : List String) :
    ∀ (idxs : List Nat) (budget : Nat) (seen : List String)
      (s : ThumbCacheState V), (∀ p ∈ VP, p ∈ seen) →
      ∀ r ∈ (prefetchLoop ms idxs budget seen s).thumb_req_q,
        r ∈ s.thumb_req_q ∨ r.path_text ∉ VP := by
  intro idxs
  induction idxs with
  | nil => intro budget seen s _ r hr; exact Or.inl hr
  | cons i rest ih =>
    intro budget seen s hsub r hr
    rw [prefetchLoop] at hr
    by_cases hb : budget = 0
    · rw [if_pos hb] at hr
      exact Or.inl hr
    rw [if_neg hb] at hr
    cases hm : ms[i]? with
    | none =>
      simp only [hm] at hr
      exact ih budget seen s hsub r hr
    | some m =>
      simp only [hm] at hr
      by_cases hseen : m.path ∈ seen
      · rw [if_pos hseen] at hr
        exact ih budget seen s hsub r hr
      · rw [if_neg hseen] at hr
        have hrec := ih _ (m.path :: seen) (check_incache s i (cacheIdOf m) m.path).2
          (fun p hp => List.mem_cons_of_mem _ (hsub p hp)) r hr
        rcases hrec with hin | hout
        · rcases check_incache_req_q s i (cacheIdOf m) m.path r hin with h1 | h2
          · exact Or.inl h1
          · refine Or.inr ?_
            intro hvp
            have : r.path_text = m.path := by rw [h2]
            rw [this] at hvp
            exact hseen (hsub _ hvp)
        · exact Or.inr hout

/-! ### Claim C9 -/

/-- C9 counterexample: a render pass executed while the
ScrollActivityTracker is Active still enqueues a generation request — the
unconditional `_prefetch_thumbs` call requests thumbnails for buffer-row
items (here the off-screen second match), so "never enqueues a generation
request" while Active is false. -/
theorem C9_scroll_active_counterexample :
    ((render_results_step true [⟨"p1", "h1"⟩, ⟨"p2", "h2"⟩] 0 1 1
        (initThumbCache Unit)).2.thumb_req_q = [⟨1, "p2", "h2"⟩]) ∧
    ([(⟨1, "p2", "h2"⟩ : PendingRequest)] ≠ []) := by
  exact ⟨by decide, by decide⟩

/-- C9 (amended): while the tracker is Active a render pass never swaps
image bytes into any slot (each in-range slot shows the placeholder and
the canvas pass leaves the cache state untouched) and enqueues no request
for any visible slot — every request it adds comes from the prefetch of
non-visible buffer rows; the transition back to Idle clears the Active
flag and calls `_schedule_render` exactly once, arming one render. -/
theorem C9_scroll_active_suppression {V : Type} (ms : List SearchMatch)
    (fr c vr : Nat) (s : ThumbCacheState V) (t : ScrollTracker)
    (now : ℚ) (sched : RenderSched) :
    ((render_canvas_only true ms (fr * c) (c * vr) s).2 = s) ∧
    (∀ v : V, SlotDisplay.image v ∉ (render_results_step true ms fr c vr s).1) ∧
    (∀ r ∈ (render_results_step true ms fr c vr s).2.thumb_req_q,
        r ∈ s.thumb_req_q ∨ r.path_text ∉ visiblePaths ms (fr * c) (c * vr)) ∧
    ((mark_scroll_idle t now sched).1.scroll_active = false) ∧
    ((mark_scroll_idle t now sched).2 = schedule_render now 1 sched) ∧
    ((mark_scroll_idle t now sched).2.render_after.isSome = true) := by
  obtain ⟨hs, hd⟩ := renderSlots_active ms (fr * c) (List.range (c * vr)) s
  have hcanvas : (render_canvas_only true ms (fr * c) (c * vr) s).2 = s := hs
  refine ⟨hcanvas, hd, ?_, rfl, rfl, rfl⟩
  intro r hr
  rw [render_results_step] at hr
  simp only at hr
  rw [prefetch_thumbs] at hr
  by_cases hms : ms.length = 0
  · rw [if_pos hms] at hr
    rw [hcanvas] at hr
    exact Or.inl hr
  · rw [if_neg hms] at hr
    simp only at hr
    rw [hcanvas] at hr
    exact prefetchLoop_new_reqs ms (visiblePaths ms (fr * c) (c * vr)) _ 80
      (visiblePaths ms (fr * c) (c * vr)) s (fun p hp => hp) r hr

/-- Witness for C9 at concrete inputs: an Active render pass leaves the
cache untouched by the canvas stage, its one enqueued request is for a
non-visible item, and the Idle transition deactivates and schedules one
render. -/
theorem C9_scroll_active_suppression_witness :
    ((render_canvas_only true [⟨"p1", "h1"⟩, ⟨"p2", "h2"⟩] 0 1
        (initThumbCache Unit)).2 = initThumbCache Unit) ∧
    (((⟨1, "p2", "h2"⟩ : PendingRequest) ∈ (initThumbCache Unit).thumb_req_q) ∨
      "p2" ∉ visiblePaths [⟨"p1", "h1"⟩, ⟨"p2", "h2"⟩] 0 1) ∧
    ((mark_scroll_idle ⟨true, some ()⟩ 0 initRenderSched).1.scroll_active = false) := by
  have h := @C9_scroll_active_suppression Unit [⟨"p1", "h1"⟩, ⟨"p2", "h2"⟩]
    0 1 1 (initThumbCache Unit) ⟨true, some ()⟩ 0 initRenderSched
  refine ⟨h.1, ?_, h.2.2.2.1⟩
  have h3 := h.2.2.1 ⟨1, "p2", "h2"⟩ (by decide)
  simpa using h3

end IDS

